import Mathlib

/-!
Verification of the async-httype HTTP/1.x toolkit.

Shallow embedding conventions:
* Byte streams are `List Nat` (each element one byte, 0–255); a `read` of a
  1-byte buffer yields the head, a windowed read of size `w` yields
  `min w remaining` bytes, and an exhausted list models a read returning 0
  bytes (clean end-of-stream).  List-backed streams never produce transport
  errors, matching the in-memory buffers the crate's own tests use.
* Output sinks (`Write` streams) are accumulating `List Nat` / `List Char`;
  `write`/`flush` on them always succeed.
* Rust `String` values are `List Char`.
* Fallible functions return `Except Error _` together with the final state of
  every `&mut` argument (Rust mutates accumulators in place even on the error
  path, so the post-state matters).
* A distinct `RunResult` type is used where the Rust code can panic
  (out-of-bounds index / usize underflow) or loop forever, with explicit
  `panic` / `diverge` outcomes.
-/

/-- The crate's error taxonomy (src/errors.rs). -/
inductive Error where
  | streamNotReadable
  | streamNotWritable
  | sizeLimitExceeded (limit : Nat)
  | invalidData
  | invalidHeader (name : List Char)
  | missingHeader (name : List Char)
deriving DecidableEq, Repr

/-- Outcome of an operation that may additionally panic (index out of
bounds / usize underflow) or loop forever reading 0 bytes. -/
inductive RunResult (α : Type) where
  | ok (a : α)
  | err (e : Error)
  | panic
  | diverge
deriving DecidableEq, Repr

/-- Loop of `has_sequence` (utils.rs): naive scan that counts consecutive
matches and resets to 0 on a mismatch without re-examining the byte. -/
def hasSequenceLoop (needle : List Nat) : List Nat → Nat → Bool
  | [], _ => false
  | b :: rest, found =>
    let found' := if needle.get? found = some b then found + 1 else 0
    if found' = needle.length then true else hasSequenceLoop needle rest found'

/-- `has_sequence` (utils.rs): true when `needle` occurs contiguously in
`bytes`, as detected by the crate's naive matcher. -/
def has_sequence (bytes needle : List Nat) : Bool :=
  hasSequenceLoop needle bytes 0

/-- Loop of `read_head` (utils.rs): reads one byte at a time; space splits a
token, CR sets the stage flag, LF with the flag set terminates, LF without it
is `InvalidData`, and reaching 265 cumulative bytes is `InvalidData`.
Returns the final `parts` vector alongside the result. -/
def readHeadLoop : List Nat → List Char → List (List Char) → Nat → Nat →
    Except Error Nat × List (List Char)
  | [], _, parts, length, _ => (.ok length, parts)
  | b :: rest, buff, parts, length, stage =>
    let length' := length + 1
    if length' = 265 then (.error .invalidData, parts)
    else if b = 32 then readHeadLoop rest [] (parts ++ [buff]) length' stage
    else if b = 13 then readHeadLoop rest buff parts length' 1
    else if b = 10 then
      if stage = 1 then (.ok length', parts ++ [buff])
      else (.error .invalidData, parts)
    else readHeadLoop rest (buff ++ [Char.ofNat b]) parts length' stage

/-- `read_head` (utils.rs): tokenize one start-line off the stream. -/
def read_head (stream : List Nat) (parts : List (List Char)) :
    Except Error Nat × List (List Char) :=
  readHeadLoop stream [] parts 0 0

/-- Value of one hexadecimal digit byte, as accepted by
`i64::from_str_radix(_, 16)`. -/
def hexDigitVal (b : Nat) : Option Nat :=
  if 48 ≤ b ∧ b ≤ 57 then some (b - 48)
  else if 97 ≤ b ∧ b ≤ 102 then some (b - 87)
  else if 65 ≤ b ∧ b ≤ 70 then some (b - 55)
  else none

/-- Accumulate hex digits left to right; `none` on an empty digit string or
any non-digit, mirroring `from_str_radix`'s digit scan. -/
def hexVal (l : List Nat) : Option Nat :=
  if l.isEmpty then none
  else l.foldl (fun acc b => acc.bind fun a => (hexDigitVal b).map fun d => 16 * a + d)
    (some 0)

/-- The chunk-size line decoder of `read_chunked_stream`:
`String::from_utf8` then `i64::from_str_radix(_, 16)` then `as usize`.
A byte ≥ 128 is either invalid UTF-8 or a non-ASCII char, and both make
`from_str_radix` fail, so it maps to `none`.  `from_str_radix` on `i64`
accepts an optional leading `+`/`-`; values outside the i64 range fail;
a negative result cast `as usize` wraps modulo 2^64. -/
def parseHexSize (buffer : List Nat) : Option Nat :=
  if buffer.any (fun b => 128 ≤ b) then none
  else if buffer.isEmpty then none
  else if buffer.head? = some 43 then
    (hexVal buffer.tail).bind fun v => if v < 2 ^ 63 then some v else none
  else if buffer.head? = some 45 then
    (hexVal buffer.tail).bind fun v =>
      if v = 0 then some 0
      else if v ≤ 2 ^ 63 then some (2 ^ 64 - v) else none
  else (hexVal buffer).bind fun v => if v < 2 ^ 63 then some v else none

/-- Loop of `read_chunked_stream` (utils.rs).  One byte per iteration builds
the hex size line; on its terminating LF the chunk size is parsed, the limit
is checked (`total + length > limit` fails before any append), then exactly
`length` data bytes are appended to `source` and 2 trailer bytes are
discarded.  End-of-stream at the size-line stage breaks with `Ok total`. -/
def readChunkedLoop : List Nat → List Nat → Nat → Nat → List Nat → Option Nat →
    Except Error Nat × List Nat
  | [], _, _, total, source, _ => (.ok total, source)
  | b :: rest, buffer, stage, total, source, limit =>
    if b = 13 then
      if stage = 0 ∨ stage = 2 then
        readChunkedLoop rest buffer (stage + 1) total source limit
      else (.error .invalidData, source)
    else if b = 10 then
      if stage = 3 then (.ok total, source)
      else if stage = 1 then
        match parseHexSize buffer with
        | none => (.error .invalidData, source)
        | some len =>
          if len = 0 then (.ok total, source)
          else if (match limit with | some l => decide (total + len > l) | none => false) then
            (.error (.sizeLimitExceeded (limit.getD 0)), source)
          else if rest.length < len then (.error .streamNotReadable, source)
          else
            let source' := source ++ rest.take len
            if (rest.drop len).length < 2 then (.error .streamNotReadable, source')
            else readChunkedLoop (rest.drop (len + 2)) [] 0 (total + len) source' limit
      else (.error .invalidData, source)
    else readChunkedLoop rest (buffer ++ [b]) stage total source limit
termination_by s _ _ _ _ _ => s.length
decreasing_by
  all_goals simp [List.length_drop] <;> omega

/-- `read_chunked_stream` (utils.rs): decode a chunked body into `source`,
returning the decoded byte total. -/
def read_chunked_stream (stream source : List Nat) (limit : Option Nat) :
    Except Error Nat × List Nat :=
  readChunkedLoop stream [] 0 0 source limit

/-- `read_sized_stream` (utils.rs): `read_exact` of `length` bytes, appended
to `source` only on success; a short stream is `StreamNotReadable`. -/
def read_sized_stream (stream source : List Nat) (length : Nat) :
    Except Error Nat × List Nat :=
  if stream.length < length then (.error .streamNotReadable, source)
  else (.ok length, source ++ stream.take length)

/-- Loop of `relay_chunked_stream` (utils.rs).  Before each read the ceiling
is compared with the relayed byte count (`count >= limit` fails); a window of
up to 1024 bytes is read, written out, and appended to a trailing buffer that
is then sliced to `buffer[buffer.len()-5..]` — a usize underflow (panic) when
fewer than 5 bytes have accumulated.  The loop has no end-of-stream exit: a
0-byte read with no terminator in the window repeats forever (`diverge`). -/
def relayChunkedLoop (input : List Nat) (output : List Nat)
    (buffer : List Nat) (count : Nat) (limit : Option Nat) :
    RunResult Nat × List Nat :=
  if (match limit with | some l => decide (count ≥ l) | none => false) then
    (.err (.sizeLimitExceeded (limit.getD 0)), output)
  else
    let size := min 1024 input.length
    let bytes := input.take size
    let count' := count + size
    let output' := output ++ bytes
    let buffer1 := buffer ++ bytes
    if buffer1.length < 5 then (.panic, output')
    else
      let buffer2 := buffer1.drop (buffer1.length - 5)
      if has_sequence buffer2 [48, 13, 10, 13, 10] then (.ok count', output')
      else if size = 0 then (.diverge, output')
      else relayChunkedLoop (input.drop size) output' buffer2 count' limit
termination_by input.length
decreasing_by simp [List.length_drop]; omega

/-- `relay_chunked_stream` (utils.rs): forward a chunked body window by
window until the 5-byte trailing window contains `"0\r\n\r\n"`. -/
def relay_chunked_stream (input output : List Nat) (limit : Option Nat) :
    RunResult Nat × List Nat :=
  relayChunkedLoop input output [] 0 limit

/-- Loop of `relay_sized_stream` (utils.rs): read up to 1024 bytes, write
them out, stop with `Ok` when the read returned 0 bytes or exactly `length`
bytes have been relayed; overshooting `length` is `SizeLimitExceeded(length)`. -/
def relaySizedLoop (input : List Nat) (output : List Nat) (count : Nat)
    (length : Nat) : Except Error Nat × List Nat :=
  let size := min 1024 input.length
  let bytes := input.take size
  let count' := count + size
  let output' := output ++ bytes
  if size = 0 ∨ count' = length then (.ok count', output')
  else if count' > length then (.error (.sizeLimitExceeded length), output')
  else relaySizedLoop (input.drop size) output' count' length
termination_by input.length
decreasing_by simp [List.length_drop]; omega

/-- `relay_sized_stream` (utils.rs): forward `length` bytes; `length = 0`
returns immediately with `Ok 0`. -/
def relay_sized_stream (input output : List Nat) (length : Nat) :
    Except Error Nat × List Nat :=
  if length = 0 then (.ok 0, output)
  else relaySizedLoop input output 0 length

/-- `Body` (src/body.rs): accumulating byte buffer, decoded length and an
optional byte ceiling. -/
structure Body where
  bytes : List Nat
  length : Nat
  length_limit : Option Nat
deriving DecidableEq, Repr

/-- `Body::new`. -/
def Body.new : Body := ⟨[], 0, none⟩

/-- `Body::read_chunked` (body.rs): with a ceiling `l`, a zero ceiling fails
immediately, otherwise the remaining budget `l - length` is passed to
`read_chunked_stream`; `length` is bumped only on success, while `bytes` is
mutated in place by the stream call even when it errors. -/
def Body.read_chunked (b : Body) (stream : List Nat) : Except Error Nat × Body :=
  match b.length_limit with
  | some l =>
    if l = 0 then (.error (.sizeLimitExceeded l), b)
    else
      match read_chunked_stream stream b.bytes (some (l - b.length)) with
      | (.ok n, src) => (.ok n, { b with bytes := src, length := b.length + n })
      | (.error e, src) => (.error e, { b with bytes := src })
  | none =>
    match read_chunked_stream stream b.bytes none with
    | (.ok n, src) => (.ok n, { b with bytes := src, length := b.length + n })
    | (.error e, src) => (.error e, { b with bytes := src })

/-- `Body::read_sized` (body.rs): fails up-front with the full ceiling when
`length + self.length > limit`, otherwise defers to `read_sized_stream`. -/
def Body.read_sized (b : Body) (stream : List Nat) (length : Nat) :
    Except Error Nat × Body :=
  if (match b.length_limit with
      | some l => decide (length + b.length > l)
      | none => false) then
    (.error (.sizeLimitExceeded (b.length_limit.getD 0)), b)
  else
    match read_sized_stream stream b.bytes length with
    | (.ok n, src) => (.ok n, { b with bytes := src, length := b.length + n })
    | (.error e, src) => (.error e, { b with bytes := src })

/-- `Body::clear`. -/
def Body.clear (_ : Body) : Body := ⟨[], 0, none⟩

/-- `Relay` (src/relay.rs): forwarded byte count and optional ceiling. -/
structure Relay where
  length : Nat
  length_limit : Option Nat
deriving DecidableEq, Repr

/-- `Relay::new`. -/
def Relay.new : Relay := ⟨0, none⟩

/-- `Relay::relay_chunked` (relay.rs): same budget arithmetic as
`Body::read_chunked`, delegating to `relay_chunked_stream`. -/
def Relay.relay_chunked (r : Relay) (input output : List Nat) :
    RunResult Nat × Relay × List Nat :=
  match r.length_limit with
  | some l =>
    if l = 0 then (.err (.sizeLimitExceeded l), r, output)
    else
      match relay_chunked_stream input output (some (l - r.length)) with
      | (.ok n, out) => (.ok n, { r with length := r.length + n }, out)
      | (other, out) => (other, r, out)
  | none =>
    match relay_chunked_stream input output none with
    | (.ok n, out) => (.ok n, { r with length := r.length + n }, out)
    | (other, out) => (other, r, out)

/-- `Relay::relay_sized` (relay.rs): fails up-front with the full ceiling
when `length + self.length > limit`, then defers to `relay_sized_stream`. -/
def Relay.relay_sized (r : Relay) (input output : List Nat) (length : Nat) :
    Except Error Nat × Relay × List Nat :=
  if (match r.length_limit with
      | some l => decide (length + r.length > l)
      | none => false) then
    (.error (.sizeLimitExceeded (r.length_limit.getD 0)), r, output)
  else
    match relay_sized_stream input output length with
    | (.ok n, out) => (.ok n, { r with length := r.length + n }, out)
    | (.error e, out) => (.error e, r, out)

/-- `str::contains("\r\n")` on a char sequence. -/
def containsCRLF : List Char → Bool
  | [] => false
  | [_] => false
  | c1 :: c2 :: rest => (c1 == '\r' && c2 == '\n') || containsCRLF (c2 :: rest)

/-- `str::split("\r\n")`: leftmost-first, non-overlapping split on the
two-character separator; always returns at least one (possibly empty) part. -/
def splitCRLF : List Char → List (List Char)
  | [] => [[]]
  | [c] => [[c]]
  | c1 :: c2 :: rest =>
    if c1 = '\r' ∧ c2 = '\n' then [] :: splitCRLF rest
    else
      match splitCRLF (c2 :: rest) with
      | [] => [[c1]]
      | l :: ls => (c1 :: l) :: ls

/-- First occurrence of a single-character separator:
`some (before, after)` or `none` when absent. -/
def splitOnceChar (sep : Char) : List Char → Option (List Char × List Char)
  | [] => none
  | c :: rest =>
    if c = sep then some ([], rest)
    else (splitOnceChar sep rest).map fun p => (c :: p.1, p.2)

/-- `str::splitn(3, " ")`: at most three parts, remainder kept whole. -/
def splitn3Space (l : List Char) : List (List Char) :=
  match splitOnceChar ' ' l with
  | none => [l]
  | some (a, rest) =>
    match splitOnceChar ' ' rest with
    | none => [a, rest]
    | some (b, rest2) => [a, b, rest2]

/-- First occurrence of the two-character separator `": "` as used by
`str::splitn(2, ": ")`. -/
def splitOnceColonSpace : List Char → Option (List Char × List Char)
  | [] => none
  | [_] => none
  | c1 :: c2 :: rest =>
    if c1 = ':' ∧ c2 = ' ' then some ([], rest)
    else (splitOnceColonSpace (c2 :: rest)).map fun p => (c1 :: p.1, p.2)

/-- Whether `": "` occurs in the sequence. -/
def containsColonSpace : List Char → Bool
  | [] => false
  | [_] => false
  | c1 :: c2 :: rest => (c1 == ':' && c2 == ' ') || containsColonSpace (c2 :: rest)

/-- One decimal digit as a character. -/
def digitToChar (d : Nat) : Char :=
  if d = 0 then '0' else if d = 1 then '1' else if d = 2 then '2'
  else if d = 3 then '3' else if d = 4 then '4' else if d = 5 then '5'
  else if d = 6 then '6' else if d = 7 then '7' else if d = 8 then '8' else '9'

/-- ASCII decimal digit test. -/
def charIsDigit (c : Char) : Bool := decide (48 ≤ c.toNat ∧ c.toNat ≤ 57)

/-- Value of an ASCII decimal digit character. -/
def charDigitVal (c : Char) : Nat := c.toNat - 48

/-- Digit characters of `n`, most significant first (`fuel ≥ n` suffices). -/
def natToStringAux : Nat → Nat → List Char
  | 0, _ => []
  | fuel + 1, n =>
    if n = 0 then [] else natToStringAux fuel (n / 10) ++ [digitToChar (n % 10)]

/-- `usize::to_string` / `format!("{}")` for an unsigned integer. -/
def natToString (n : Nat) : List Char :=
  if n = 0 then ['0'] else natToStringAux n n

/-- `str::parse::<usize>()`: optional leading `+`, one or more decimal
digits, failing on overflow past `2^64 - 1`. -/
def parseUsize (l : List Char) : Option Nat :=
  let ds := if l.head? = some '+' then l.tail else l
  if ds.isEmpty then none
  else if ds.all charIsDigit then
    let v := ds.foldl (fun a c => 10 * a + charDigitVal c) 0
    if v < 2 ^ 64 then some v else none
  else none

/-- `HashMap::insert` on the association-list model of a header map:
replace in place when the key exists, otherwise append (last write wins). -/
def hmInsert (m : List (List Char × List Char)) (k v : List Char) :
    List (List Char × List Char) :=
  if m.any (fun p => p.1 == k) then
    m.map (fun p => if p.1 = k then (k, v) else p)
  else m ++ [(k, v)]

/-- `Response` (src/response.rs).  The header map is modelled as an
association list; `build_headers` iterates it in list order (one admissible
`HashMap` iteration order). -/
structure Response where
  status_code : Option Nat
  status_message : Option (List Char)
  version : Option (List Char)
  headers : List (List Char × List Char)
  length : Nat
  length_limit : Option Nat
  lines : List (List Char)
deriving DecidableEq, Repr

/-- `Response::new`. -/
def Response.new : Response := ⟨none, none, none, [], 0, none, []⟩

/-- `Response::read_string` (response.rs): requires at least one CRLF,
checks the ceiling against the char count, then appends the
CRLF-split segments to `lines`. -/
def Response.read_string (r : Response) (value : List Char) :
    Except Error Unit × Response :=
  if containsCRLF value then
    if (match r.length_limit with
        | some l => decide (value.length + r.length > l)
        | none => false) then
      (.error (.sizeLimitExceeded (r.length_limit.getD 0)), r)
    else
      (.ok (), { r with length := r.length + value.length,
                        lines := r.lines ++ splitCRLF value })
  else (.error .invalidData, r)

/-- `Response::parse_head` (response.rs): splits the first raw line with
`splitn(3, " ")`, accepts only `HTTP/1.0`/`HTTP/1.1` (stored as
`"1.0"`/`"1.1"`), then parses the status code.  The reason phrase (third
part) is never read, and `version` is already assigned when a later step
fails. -/
def Response.parse_head (r : Response) : Except Error Unit × Response :=
  match r.lines.head? with
  | none => (.error .invalidData, r)
  | some head =>
    let parts := splitn3Space head
    match parts.get? 0 with
    | none => (.error .invalidData, r)
    | some p0 =>
      if p0 = "HTTP/1.0".toList ∨ p0 = "HTTP/1.1".toList then
        let v : List Char :=
          if p0 = "HTTP/1.0".toList then "1.0".toList else "1.1".toList
        let r1 := { r with version := some v }
        match parts.get? 1 with
        | none => (.error .invalidData, r1)
        | some p1 =>
          match parseUsize p1 with
          | none => (.error .invalidData, r1)
          | some code => (.ok (), { r1 with status_code := some code })
      else (.error .invalidData, r)

/-- Header-line scan of `Response::parse_headers`: stops at the first empty
line, fails `InvalidData` when a line has no `": "`, inserts pairs as it
goes (earlier inserts are kept when a later line fails). -/
def parseHeaderLinesResp : List (List Char) → List (List Char × List Char) →
    Except Error Unit × List (List Char × List Char)
  | [], hs => (.ok (), hs)
  | line :: rest, hs =>
    if line = [] then (.ok (), hs)
    else
      match splitOnceColonSpace line with
      | none => (.error .invalidData, hs)
      | some (n, v) => parseHeaderLinesResp rest (hmInsert hs n v)

/-- `Response::parse_headers` (response.rs). -/
def Response.parse_headers (r : Response) : Except Error Unit × Response :=
  match parseHeaderLinesResp (r.lines.drop 1) r.headers with
  | (.ok _, hs) => (.ok (), { r with headers := hs })
  | (.error e, hs) => (.error e, { r with headers := hs })

/-- `Response::build_head` (response.rs): requires version, status code and
status message; pushes the head line when `lines` is empty, otherwise
overwrites `lines[0]`. -/
def Response.build_head (r : Response) : Except Error Unit × Response :=
  match r.version with
  | none => (.error .invalidData, r)
  | some v =>
    match r.status_code with
    | none => (.error .invalidData, r)
    | some code =>
      match r.status_message with
      | none => (.error .invalidData, r)
      | some msg =>
        let head := ("HTTP/".toList ++ v) ++ ' ' :: natToString code ++ ' ' :: msg
        match r.lines with
        | [] => (.ok (), { r with lines := [head] })
        | _ :: rest => (.ok (), { r with lines := head :: rest })

/-- `Response::build_headers` (response.rs): keep the head line (when any),
discard the other raw lines, and regenerate one `name: value` line per
header-map entry. -/
def Response.build_headers (r : Response) : Except Error Unit × Response :=
  let headLines : List (List Char) :=
    match r.lines.head? with
    | some h => [h]
    | none => []
  (.ok (), { r with lines := headLines ++ r.headers.map fun p => p.1 ++ ':' :: ' ' :: p.2 })

/-- `Response::to_string` (response.rs): join lines with CRLF and append a
trailing blank line. -/
def Response.to_string (r : Response) : List Char :=
  List.intercalate ['\r', '\n'] r.lines ++ ['\r', '\n', '\r', '\n']

/-- `Request` (src/request.rs), modelled like `Response`. -/
structure Request where
  method : Option (List Char)
  uri : Option (List Char)
  version : Option (List Char)
  headers : List (List Char × List Char)
  length : Nat
  length_limit : Option Nat
  lines : List (List Char)
deriving DecidableEq, Repr

/-- `Request::new`. -/
def Request.new : Request := ⟨none, none, none, [], 0, none, []⟩

/-- `Request::build_head` (request.rs): requires method, URI and version,
then assigns `self.lines[0]` unconditionally — an out-of-bounds panic when
`lines` is empty (unlike `Response::build_head`, which pushes). -/
def Request.build_head (r : Request) : RunResult Unit × Request :=
  match r.method with
  | none => (.err .invalidData, r)
  | some m =>
    match r.uri with
    | none => (.err .invalidData, r)
    | some u =>
      match r.version with
      | none => (.err .invalidData, r)
      | some v =>
        let head := m ++ ' ' :: u ++ ' ' :: ("HTTP/".toList ++ v)
        match r.lines with
        | [] => (.panic, r)
        | _ :: rest => (.ok (), { r with lines := head :: rest })

/-- Whether `needle` starts the sequence (helper for `str::contains`). -/
def startsWithChars : List Char → List Char → Bool
  | [], _ => true
  | _ :: _, [] => false
  | a :: as, b :: bs => a = b && startsWithChars as bs

/-- `str::contains(needle)` for the substring test used by `Body::read`. -/
def strContains (needle : List Char) : List Char → Bool
  | [] => needle.isEmpty
  | c :: rest => startsWithChars needle (c :: rest) || strContains needle rest

/-- `Body::read` (body.rs): chunked mode when `Transfer-Encoding` contains
`"chunked"`, else parse `Content-Length` (failing with
`InvalidHeader("Content-Length")`) and read that many bytes. -/
def Body.read (b : Body) (stream : List Nat)
    (res : List (List Char × List Char)) : Except Error Nat × Body :=
  let encoding := res.lookup "Transfer-Encoding".toList
  if (match encoding with
      | some enc => strContains "chunked".toList enc
      | none => false) then
    b.read_chunked stream
  else
    match res.lookup "Content-Length".toList with
    | some s =>
      match parseUsize s with
      | some n => b.read_sized stream n
      | none => (.error (.invalidHeader "Content-Length".toList), b)
    | none => (.error (.invalidHeader "Content-Length".toList), b)

/-- Bytes of a string, for concrete test streams. -/
def strBytes (s : String) : List Nat := s.toList.map Char.toNat

/-- The two-phase parse pipeline of the spec's round-trip property:
`read_string` then `parse_head` then `parse_headers` on a fresh `Response`. -/
def responseParsePipeline (text : List Char) : Except Error Unit × Response :=
  match Response.new.read_string text with
  | (.ok _, f1) =>
    match f1.parse_head with
    | (.ok _, f2) => f2.parse_headers
    | e => e
  | e => e

/-- Lowercase hex digit byte (`format!("{:x}")` digit alphabet). -/
def hexDigitByte (d : Nat) : Nat := if d < 10 then 48 + d else 87 + d

/-- Lowercase hex rendering of a chunk size, used to build the well-formed
chunked streams the theorems quantify over (nonzero sizes only). -/
def hexBytes (n : Nat) : List Nat := (Nat.digits 16 n).reverse.map hexDigitByte

/-- Wire encoding of one nonempty chunk: `<hex-size>CRLF<data>CRLF`. -/
def chunkEncode (d : List Nat) : List Nat :=
  hexBytes d.length ++ [13, 10] ++ d ++ [13, 10]

/-- Concatenated wire encoding of a list of chunks (no terminator). -/
def chunksRaw (ds : List (List Nat)) : List Nat := (ds.map chunkEncode).flatten

/-- Total payload size of a list of chunks. -/
def chunksPayload (ds : List (List Nat)) : Nat := (ds.map List.length).sum

/-! ### Digit-string lemmas -/

theorem hexDigitVal_hexDigitByte {d : Nat} (h : d < 16) :
    hexDigitVal (hexDigitByte d) = some d := by
  interval_cases d <;> rfl

theorem hexDigitByte_bounds {d : Nat} (h : d < 16) :
    hexDigitByte d ≠ 13 ∧ hexDigitByte d ≠ 10 ∧ hexDigitByte d < 128 ∧
    hexDigitByte d ≠ 43 ∧ hexDigitByte d ≠ 45 := by
  interval_cases d <;> simp [hexDigitByte]

theorem foldl_base_mul_add (b : Nat) :
    ∀ (l : List Nat) (a : Nat),
      List.foldl (fun acc d => b * acc + d) a l.reverse =
        a * b ^ l.length + Nat.ofDigits b l := by
  intro l
  induction l with
  | nil => intro a; simp [Nat.ofDigits]
  | cons d t ih =>
    intro a
    simp only [List.reverse_cons, List.foldl_append, List.foldl_cons, List.foldl_nil, ih,
      List.length_cons, Nat.ofDigits_cons, pow_succ]
    ring

theorem hexVal_hexBytes {n : Nat} (hn : n ≠ 0) : hexVal (hexBytes n) = some n := by
  have hne : Nat.digits 16 n ≠ [] := Nat.digits_ne_nil_iff_ne_zero.mpr hn
  have hb : hexBytes n ≠ [] := by
    simp [hexBytes, List.map_eq_nil_iff]
    intro hrev
    exact hne hrev
  have hfold : ∀ (ds : List Nat), (∀ d ∈ ds, d < 16) → ∀ (a : Nat),
      List.foldl
        (fun acc b => acc.bind fun x => (hexDigitVal b).map fun d => 16 * x + d)
        (some a) (ds.reverse.map hexDigitByte) =
      some (List.foldl (fun acc d => 16 * acc + d) a ds.reverse) := by
    intro ds
    induction ds with
    | nil => intro _ a; simp
    | cons d t ih =>
      intro hmem a
      have hd : d < 16 := hmem d (by simp)
      simp only [List.reverse_cons, List.map_append, List.foldl_append, List.map_cons,
        List.map_nil, List.foldl_cons, List.foldl_nil]
      rw [ih (fun x hx => hmem x (by simp [hx])) a]
      simp [hexDigitVal_hexDigitByte hd]
  unfold hexVal
  rw [if_neg (by simpa using hb)]
  have := hfold (Nat.digits 16 n) (fun d hd => Nat.digits_lt_base (by norm_num) hd) 0
  simp only [hexBytes]
  rw [this]
  rw [foldl_base_mul_add]
  simp [Nat.ofDigits_digits]

theorem hexBytes_head_not_sign {n : Nat} (_ : n ≠ 0) :
    ∀ b ∈ hexBytes n, b ≠ 13 ∧ b ≠ 10 ∧ b < 128 ∧ b ≠ 43 ∧ b ≠ 45 := by
  intro b hb
  simp only [hexBytes, List.mem_map, List.mem_reverse] at hb
  obtain ⟨d, hd, rfl⟩ := hb
  exact hexDigitByte_bounds (Nat.digits_lt_base (by norm_num) hd)

theorem parseHexSize_hexBytes {n : Nat} (h1 : n ≠ 0) (h2 : n < 2 ^ 63) :
    parseHexSize (hexBytes n) = some n := by
  have hne : hexBytes n ≠ [] := by
    intro hnil
    have := hexVal_hexBytes h1
    rw [hnil] at this
    simp [hexVal] at this
  obtain ⟨b, bs, hcons⟩ := List.exists_cons_of_ne_nil hne
  have hbmem : b ∈ hexBytes n := by rw [hcons]; simp
  obtain ⟨-, -, hlt, h43, h45⟩ := hexBytes_head_not_sign h1 b hbmem
  have hany : ¬ (hexBytes n).any (fun b => decide (128 ≤ b)) = true := by
    simp only [List.any_eq_true, decide_eq_true_eq, not_exists, not_and]
    intro x hx
    have := (hexBytes_head_not_sign h1 x hx).2.2.1
    omega
  have hhead : (hexBytes n).head? = some b := by rw [hcons]; rfl
  unfold parseHexSize
  rw [if_neg hany, if_neg (by simp [hcons]),
    if_neg (by rw [hhead]; simp [h43]), if_neg (by rw [hhead]; simp [h45]),
    hexVal_hexBytes h1]
  simpa using h2

theorem digitToChar_facts {d : Nat} (h : d < 10) :
    charIsDigit (digitToChar d) = true ∧ charDigitVal (digitToChar d) = d ∧
    digitToChar d ≠ '+' ∧ digitToChar d ≠ ' ' ∧ digitToChar d ≠ '\r' ∧
    digitToChar d ≠ '\n' := by
  interval_cases d <;> exact ⟨rfl, rfl, by decide, by decide, by decide, by decide⟩

theorem natToStringAux_eq :
    ∀ (fuel n : Nat), n ≤ fuel →
      natToStringAux fuel n = (Nat.digits 10 n).reverse.map digitToChar := by
  intro fuel
  induction fuel with
  | zero =>
    intro n h
    have h0 : n = 0 := by omega
    subst h0
    simp [natToStringAux]
  | succ fuel ih =>
    intro n h
    by_cases h0 : n = 0
    · subst h0
      simp [natToStringAux]
    · simp only [natToStringAux, if_neg h0]
      have hdiv : n / 10 ≤ fuel := by
        have := Nat.div_lt_self (Nat.pos_of_ne_zero h0) (by norm_num : (1 : Nat) < 10)
        omega
      rw [ih (n / 10) hdiv,
        Nat.digits_def' (by norm_num : (1 : Nat) < 10) (Nat.pos_of_ne_zero h0)]
      simp

theorem natToString_eq (n : Nat) :
    natToString n =
      if n = 0 then ['0'] else (Nat.digits 10 n).reverse.map digitToChar := by
  unfold natToString
  by_cases h : n = 0
  · simp [h]
  · rw [if_neg h, if_neg h, natToStringAux_eq n n le_rfl]

theorem natToString_digits (n : Nat) :
    ∀ c ∈ natToString n, charIsDigit c = true := by
  intro c hc
  rw [natToString_eq] at hc
  by_cases h : n = 0
  · rw [h] at hc; simp at hc; rw [hc]; rfl
  · rw [if_neg h] at hc
    simp only [List.mem_map, List.mem_reverse] at hc
    obtain ⟨d, hd, rfl⟩ := hc
    exact (digitToChar_facts (Nat.digits_lt_base (by norm_num) hd)).1

theorem charIsDigit_ne {c : Char} (h : charIsDigit c = true) :
    c ≠ '+' ∧ c ≠ ' ' ∧ c ≠ '\r' ∧ c ≠ '\n' ∧ c ≠ ':' := by
  unfold charIsDigit at h
  simp only [decide_eq_true_eq] at h
  refine ⟨?_, ?_, ?_, ?_, ?_⟩ <;> (intro he; rw [he] at h; simp at h)

theorem natToString_ne_nil (n : Nat) : natToString n ≠ [] := by
  rw [natToString_eq]
  by_cases h : n = 0
  · simp [h]
  · rw [if_neg h]
    simp [List.map_eq_nil_iff]
    exact Nat.digits_ne_nil_iff_ne_zero.mpr h


theorem foldl_digit_chars :
    ∀ (l : List Nat), (∀ d ∈ l, d < 10) → ∀ (a : Nat),
      List.foldl (fun x c => 10 * x + charDigitVal c) a (l.map digitToChar) =
        List.foldl (fun x d => 10 * x + d) a l := by
  intro l
  induction l with
  | nil => intro _ a; rfl
  | cons d t ih =>
    intro hmem a
    simp only [List.map_cons, List.foldl_cons]
    rw [(digitToChar_facts (hmem d (by simp))).2.1]
    exact ih (fun x hx => hmem x (by simp [hx])) _

theorem parseUsize_natToString {n : Nat} (h : n < 2 ^ 64) :
    parseUsize (natToString n) = some n := by
  have hdig := natToString_digits n
  have hnil := natToString_ne_nil n
  obtain ⟨c, cs, hcons⟩ := List.exists_cons_of_ne_nil hnil
  have hc : charIsDigit c = true := hdig c (by rw [hcons]; simp)
  have hplus : c ≠ '+' := (charIsDigit_ne hc).1
  have hfold : List.foldl (fun a c => 10 * a + charDigitVal c) 0 (natToString n) = n := by
    by_cases h0 : n = 0
    · subst h0; rfl
    · rw [natToString_eq, if_neg h0,
        foldl_digit_chars _ (fun d hd => Nat.digits_lt_base (by norm_num)
          (List.mem_reverse.mp hd)),
        foldl_base_mul_add]
      simp [Nat.ofDigits_digits]
  unfold parseUsize
  rw [hcons] at hdig hfold ⊢
  have hall : (c :: cs).all charIsDigit = true := by simpa using hdig
  simp only [List.head?_cons, List.tail_cons]
  have hplus' : (some c = some ('+' : Char)) = False := by simp [hplus]
  simp only [hplus', if_false, List.isEmpty_cons, Bool.false_eq_true, hall, if_true, hfold]
  simpa using h

/-! ### CRLF splitting lemmas -/

theorem containsCRLF_append_left {a : List Char} (b : List Char)
    (h : ∀ c ∈ a, c ≠ '\r') : containsCRLF (a ++ b) = containsCRLF b := by
  induction a with
  | nil => rfl
  | cons c t ih =>
    have hc : c ≠ '\r' := h c (by simp)
    have ht : ∀ x ∈ t, x ≠ '\r' := fun x hx => h x (by simp [hx])
    cases t with
    | nil =>
      cases b with
      | nil => rfl
      | cons b1 bt =>
        simp only [List.nil_append, List.cons_append, containsCRLF]
        simp [hc]
    | cons c2 t2 =>
      simp only [List.cons_append, containsCRLF, List.append_eq]
      simp only [List.cons_append] at ih
      rw [ih ht]
      simp [hc]

theorem containsCRLF_append_no_lf {a b : List Char}
    (ha : containsCRLF a = false) (hb : b.head? ≠ some '\n') :
    containsCRLF (a ++ b) = containsCRLF b := by
  induction a using containsCRLF.induct with
  | case1 => rfl
  | case2 c =>
    cases b with
    | nil => rfl
    | cons b1 bt =>
      have hb1 : b1 ≠ '\n' := by
        intro he; rw [he] at hb; exact hb rfl
      simp only [List.cons_append, List.nil_append, containsCRLF]
      simp [hb1]
  | case3 c1 c2 rest ih =>
    simp only [containsCRLF, Bool.or_eq_false_iff] at ha
    simp only [List.cons_append, containsCRLF, List.append_eq]
    rw [show c2 :: (rest ++ b) = (c2 :: rest) ++ b from rfl, ih ha.2]
    simp only [ha.1, Bool.false_or]

theorem containsCRLF_append_right {b : List Char} (a : List Char)
    (h : containsCRLF b = true) : containsCRLF (a ++ b) = true := by
  induction a with
  | nil => simpa
  | cons c t ih =>
    cases ht : t ++ b with
    | nil =>
      rcases List.append_eq_nil.mp ht with ⟨-, h2⟩
      rw [h2] at h
      simp [containsCRLF] at h
    | cons x xs =>
      simp only [List.cons_append, ht, containsCRLF]
      rw [← ht, ih]
      simp

theorem splitCRLF_append {l : List Char} (rest : List Char)
    (h : containsCRLF l = false) :
    splitCRLF (l ++ '\r' :: '\n' :: rest) = l :: splitCRLF rest := by
  induction l using containsCRLF.induct with
  | case1 => simp [splitCRLF]
  | case2 c => simp [splitCRLF]
  | case3 c1 c2 t ih =>
    simp only [containsCRLF, Bool.or_eq_false_iff] at h
    have hcond : ¬(c1 = '\r' ∧ c2 = '\n') := by
      intro ⟨h1, h2⟩
      rw [h1, h2] at h
      simp at h
    have ih' := ih h.2
    simp only [List.cons_append] at ih' ⊢
    simp only [splitCRLF]
    rw [if_neg hcond, ih']

theorem splitCRLF_intercalate {ls : List (List Char)} (hne : ls ≠ [])
    (h : ∀ l ∈ ls, containsCRLF l = false) :
    splitCRLF (List.intercalate ['\r', '\n'] ls ++ ['\r', '\n', '\r', '\n']) =
      ls ++ [[], []] := by
  induction ls with
  | nil => exact absurd rfl hne
  | cons l t ih =>
    cases t with
    | nil =>
      have hint : List.intercalate ['\r', '\n'] [l] = l := by
        simp [List.intercalate, List.intersperse]
      rw [hint,
        show (['\r', '\n', '\r', '\n'] : List Char) = '\r' :: '\n' :: ['\r', '\n'] from rfl,
        splitCRLF_append _ (h l (by simp))]
      rfl
    | cons l2 t2 =>
      have hstep : List.intercalate ['\r', '\n'] (l :: l2 :: t2) =
          l ++ '\r' :: '\n' :: List.intercalate ['\r', '\n'] (l2 :: t2) := by
        simp [List.intercalate, List.intersperse]
      rw [hstep]
      have hassoc :
          (l ++ '\r' :: '\n' :: List.intercalate ['\r', '\n'] (l2 :: t2)) ++
              ['\r', '\n', '\r', '\n'] =
            l ++ '\r' :: '\n' ::
              (List.intercalate ['\r', '\n'] (l2 :: t2) ++ ['\r', '\n', '\r', '\n']) := by
        simp
      rw [hassoc, splitCRLF_append _ (h l (by simp)),
        ih (by simp) (fun x hx => h x (by simp [hx]))]
      rfl

theorem splitOnceChar_append {sep : Char} {a : List Char} (b : List Char)
    (h : ∀ c ∈ a, c ≠ sep) :
    splitOnceChar sep (a ++ sep :: b) = some (a, b) := by
  induction a with
  | nil => simp [splitOnceChar]
  | cons c t ih =>
    have hc : c ≠ sep := h c (by simp)
    simp only [List.cons_append, splitOnceChar]
    rw [if_neg hc, show t.append (sep :: b) = t ++ sep :: b from rfl,
      ih (fun x hx => h x (by simp [hx]))]
    rfl

theorem splitn3Space_eq {a b c : List Char}
    (ha : ∀ x ∈ a, x ≠ ' ') (hb : ∀ x ∈ b, x ≠ ' ') :
    splitn3Space (a ++ ' ' :: b ++ ' ' :: c) = [a, b, c] := by
  unfold splitn3Space
  have h1 : a ++ ' ' :: b ++ ' ' :: c = a ++ ' ' :: (b ++ ' ' :: c) := by simp
  rw [h1, splitOnceChar_append _ ha]
  simp only []
  rw [splitOnceChar_append _ hb]

theorem splitOnceColonSpace_append {n : List Char} (v : List Char)
    (h : containsColonSpace n = false) :
    splitOnceColonSpace (n ++ ':' :: ' ' :: v) = some (n, v) := by
  induction n using containsColonSpace.induct with
  | case1 => simp [splitOnceColonSpace]
  | case2 c =>
    simp only [List.cons_append, List.nil_append, splitOnceColonSpace]
    have hcond : ¬(c = ':' ∧ (':' : Char) = ' ') := by
      rintro ⟨-, h2⟩; exact absurd h2 (by decide)
    rw [if_neg hcond]
    simp [splitOnceColonSpace]
  | case3 c1 c2 t ih =>
    simp only [containsColonSpace, Bool.or_eq_false_iff] at h
    have hcond : ¬(c1 = ':' ∧ c2 = ' ') := by
      intro ⟨h1, h2⟩
      rw [h1, h2] at h
      simp at h
    have ih' := ih h.2
    simp only [List.cons_append] at ih' ⊢
    simp only [splitOnceColonSpace]
    rw [if_neg hcond, ih']
    rfl

/-! ### Sized relay lemmas -/

theorem relaySizedLoop_short_aux :
    ∀ (n : Nat) (input output : List Nat) (count length : Nat),
      input.length ≤ n → count + input.length < length →
      relaySizedLoop input output count length =
        (.ok (count + input.length), output ++ input) := by
  intro n
  induction n with
  | zero =>
    intro input output count length hle hlt
    have hnil : input = [] := List.eq_nil_of_length_eq_zero (Nat.le_zero.mp hle)
    subst hnil
    rw [relaySizedLoop]
    simp
  | succ n ih =>
    intro input output count length hle hlt
    by_cases hnil : input = []
    · subst hnil
      rw [relaySizedLoop]
      simp
    · have hpos : 0 < input.length := List.length_pos.mpr hnil
      have hsz : min 1024 input.length ≠ 0 := by omega
      have hsle : min 1024 input.length ≤ input.length := Nat.min_le_right _ _
      rw [relaySizedLoop]
      rw [if_neg (by omega)]
      rw [if_neg (by omega)]
      rw [ih (input.drop (min 1024 input.length)) (output ++ input.take (min 1024 input.length))
        (count + min 1024 input.length) length (by simp [List.length_drop]; omega)
        (by simp [List.length_drop]; omega)]
      simp only [List.length_drop, List.append_assoc, List.take_append_drop]
      congr 2
      omega

theorem relaySizedLoop_exact_aux :
    ∀ (n : Nat) (input output : List Nat) (count length : Nat),
      input.length ≤ n → count + input.length = length →
      relaySizedLoop input output count length = (.ok length, output ++ input) := by
  intro n
  induction n with
  | zero =>
    intro input output count length hle heq
    have hnil : input = [] := List.eq_nil_of_length_eq_zero (Nat.le_zero.mp hle)
    subst hnil
    rw [relaySizedLoop]
    simp at heq
    simp [heq]
  | succ n ih =>
    intro input output count length hle heq
    by_cases hnil : input = []
    · subst hnil
      rw [relaySizedLoop]
      simp at heq
      simp [heq]
    · have hpos : 0 < input.length := List.length_pos.mpr hnil
      have hsle : min 1024 input.length ≤ input.length := Nat.min_le_right _ _
      by_cases hwhole : min 1024 input.length = input.length
      · have hc : min 1024 input.length = 0 ∨ count + min 1024 input.length = length :=
          Or.inr (by omega)
        rw [relaySizedLoop, if_pos hc, hwhole, List.take_length, heq]
      · have hlt : min 1024 input.length < input.length := by omega
        have hsz : min 1024 input.length ≠ 0 := by omega
        have hbig : min 1024 input.length = 1024 := by omega
        have hc : ¬(min 1024 input.length = 0 ∨ count + min 1024 input.length = length) := by
          omega
        have hc2 : ¬(count + min 1024 input.length > length) := by omega
        rw [relaySizedLoop, if_neg hc, if_neg hc2]
        rw [ih (input.drop (min 1024 input.length))
          (output ++ input.take (min 1024 input.length))
          (count + min 1024 input.length) length (by simp [List.length_drop]; omega)
          (by simp [List.length_drop]; omega)]
        simp [List.append_assoc, List.take_append_drop]

theorem relay_sized_stream_short {input : List Nat} (output : List Nat) {length : Nat}
    (h : input.length < length) :
    relay_sized_stream input output length = (.ok input.length, output ++ input) := by
  unfold relay_sized_stream
  rw [if_neg (by omega)]
  have := relaySizedLoop_short_aux input.length input output 0 length le_rfl (by omega)
  simpa using this

theorem relay_sized_stream_exact {input : List Nat} (output : List Nat) {length : Nat}
    (h : input.length = length) :
    relay_sized_stream input output length = (.ok length, output ++ input) := by
  unfold relay_sized_stream
  by_cases h0 : length = 0
  · subst h0
    rw [if_pos rfl]
    have : input = [] := List.eq_nil_of_length_eq_zero h
    simp [this]
  · rw [if_neg h0]
    exact relaySizedLoop_exact_aux input.length input output 0 length le_rfl (by omega)

/-! ### Chunked-relay lemmas -/

theorem relayChunkedLoop_panic {input output buffer : List Nat} {count : Nat}
    {limit : Option Nat}
    (hlim : ∀ l, limit = some l → count < l)
    (hwin : buffer.length + min 1024 input.length < 5) :
    (relayChunkedLoop input output buffer count limit).1 = .panic := by
  cases limit with
  | none =>
    rw [relayChunkedLoop.eq_def]
    rw [if_neg (by simp)]
    rw [if_pos (by simpa using hwin)]
  | some l =>
    have hl := hlim l rfl
    rw [relayChunkedLoop.eq_def]
    rw [if_neg (by simp; omega)]
    rw [if_pos (by simpa using hwin)]

/-! ### Chunked-decoder step equations -/

theorem readChunked_nil (buffer : List Nat) (stage total : Nat) (source : List Nat)
    (limit : Option Nat) :
    readChunkedLoop [] buffer stage total source limit = (.ok total, source) := by
  simp only [readChunkedLoop]

theorem readChunked_other {b : Nat} (hb13 : b ≠ 13) (hb10 : b ≠ 10)
    (rest buffer : List Nat) (stage total : Nat) (source : List Nat) (limit : Option Nat) :
    readChunkedLoop (b :: rest) buffer stage total source limit =
      readChunkedLoop rest (buffer ++ [b]) stage total source limit := by
  simp only [readChunkedLoop]
  rw [if_neg hb13, if_neg hb10]

theorem readChunked_cr {stage : Nat} (hst : stage = 0 ∨ stage = 2)
    (rest buffer : List Nat) (total : Nat) (source : List Nat) (limit : Option Nat) :
    readChunkedLoop (13 :: rest) buffer stage total source limit =
      readChunkedLoop rest buffer (stage + 1) total source limit := by
  simp only [readChunkedLoop, if_true]
  rw [if_pos hst]

theorem readChunked_cr_bad {stage : Nat} (hst : ¬(stage = 0 ∨ stage = 2))
    (rest buffer : List Nat) (total : Nat) (source : List Nat) (limit : Option Nat) :
    readChunkedLoop (13 :: rest) buffer stage total source limit =
      (.error .invalidData, source) := by
  simp only [readChunkedLoop, if_true]
  rw [if_neg hst]

theorem readChunked_lf_stage3 (rest buffer : List Nat) (total : Nat) (source : List Nat)
    (limit : Option Nat) :
    readChunkedLoop (10 :: rest) buffer 3 total source limit = (.ok total, source) := by
  simp only [readChunkedLoop]
  norm_num

theorem readChunked_lf_bad {stage : Nat} (h1 : stage ≠ 1) (h3 : stage ≠ 3)
    (rest buffer : List Nat) (total : Nat) (source : List Nat) (limit : Option Nat) :
    readChunkedLoop (10 :: rest) buffer stage total source limit =
      (.error .invalidData, source) := by
  simp only [readChunkedLoop]
  rw [if_neg (by decide), if_neg h3, if_neg h1]
  norm_num

theorem readChunked_lf_stage1 (rest buffer : List Nat) (total : Nat) (source : List Nat)
    (limit : Option Nat) :
    readChunkedLoop (10 :: rest) buffer 1 total source limit =
      (match parseHexSize buffer with
       | none => (.error .invalidData, source)
       | some len =>
         if len = 0 then (.ok total, source)
         else if (match limit with | some l => decide (total + len > l) | none => false) then
           (.error (.sizeLimitExceeded (limit.getD 0)), source)
         else if rest.length < len then (.error .streamNotReadable, source)
         else if (rest.drop len).length < 2 then
           (.error .streamNotReadable, source ++ rest.take len)
         else readChunkedLoop (rest.drop (len + 2)) [] 0 (total + len)
           (source ++ rest.take len) limit) := by
  simp only [readChunkedLoop]
  norm_num

theorem readChunked_lf_stage1_none {buffer : List Nat} (hp : parseHexSize buffer = none)
    (rest : List Nat) (total : Nat) (source : List Nat) (limit : Option Nat) :
    readChunkedLoop (10 :: rest) buffer 1 total source limit =
      (.error .invalidData, source) := by
  rw [readChunked_lf_stage1, hp]

theorem readChunked_lf_stage1_some {buffer : List Nat} {len : Nat}
    (hp : parseHexSize buffer = some len)
    (rest : List Nat) (total : Nat) (source : List Nat) (limit : Option Nat) :
    readChunkedLoop (10 :: rest) buffer 1 total source limit =
      (if len = 0 then (.ok total, source)
       else if (match limit with | some l => decide (total + len > l) | none => false) then
         (.error (.sizeLimitExceeded (limit.getD 0)), source)
       else if rest.length < len then (.error .streamNotReadable, source)
       else if (rest.drop len).length < 2 then
         (.error .streamNotReadable, source ++ rest.take len)
       else readChunkedLoop (rest.drop (len + 2)) [] 0 (total + len)
         (source ++ rest.take len) limit) := by
  rw [readChunked_lf_stage1, hp]

/-- Accumulator/limit invariant of the chunked decoder: the final accumulator
extends the initial one by exactly the fully committed chunks; the committed
total never crosses a configured ceiling; an `Ok` result counts exactly the
appended bytes; `SizeLimitExceeded` carries the configured ceiling. -/
theorem readChunkedLoop_spec :
    ∀ (fuel : Nat) (stream buffer : List Nat) (stage total : Nat) (source : List Nat)
      (limit : Option Nat) (r : Except Error Nat) (src : List Nat),
      stream.length ≤ fuel →
      readChunkedLoop stream buffer stage total source limit = (r, src) →
      ∃ extra : List Nat,
        src = source ++ extra ∧
        (∀ n, r = .ok n → n = total + extra.length) ∧
        (∀ l, limit = some l → total ≤ l → total + extra.length ≤ l) ∧
        (∀ l', r = .error (.sizeLimitExceeded l') → limit = some l') := by
  intro fuel
  induction fuel with
  | zero =>
    intro stream buffer stage total source limit r src hle h
    have hnil : stream = [] := List.eq_nil_of_length_eq_zero (Nat.le_zero.mp hle)
    subst hnil
    rw [readChunked_nil] at h
    injection h with h1 h2
    subst h1
    subst h2
    exact ⟨[], by simp, by intro n hn; injection hn with h'; subst h'; simp,
      by intro l hl ht; simpa using ht, by intro l' h'; simp at h'⟩
  | succ fuel ih =>
    intro stream buffer stage total source limit r src hle h
    cases stream with
    | nil =>
      rw [readChunked_nil] at h
      injection h with h1 h2
      subst h1
      subst h2
      exact ⟨[], by simp, by intro n hn; injection hn with h'; subst h'; simp,
        by intro l hl ht; simpa using ht, by intro l' h'; simp at h'⟩
    | cons b rest =>
      by_cases hb13 : b = 13
      · subst hb13
        by_cases hst : stage = 0 ∨ stage = 2
        · rw [readChunked_cr hst] at h
          exact ih rest buffer (stage + 1) total source limit r src
            (by simp at hle; omega) h
        · rw [readChunked_cr_bad hst] at h
          injection h with h1 h2
          subst h1
          subst h2
          exact ⟨[], by simp, by intro n hn; simp at hn,
            by intro l hl ht; simpa using ht, by intro l' h'; simp at h'⟩
      · by_cases hb10 : b = 10
        · subst hb10
          by_cases h3 : stage = 3
          · subst h3
            rw [readChunked_lf_stage3] at h
            injection h with h1 h2
            subst h1
            subst h2
            exact ⟨[], by simp, by intro n hn; injection hn with h'; subst h'; simp,
              by intro l hl ht; simpa using ht, by intro l' h'; simp at h'⟩
          · by_cases h1 : stage = 1
            · subst h1
              cases hp : parseHexSize buffer with
              | none =>
                rw [readChunked_lf_stage1_none hp] at h
                injection h with hh1 hh2
                subst hh1
                subst hh2
                exact ⟨[], by simp, by intro n hn; simp at hn,
                  by intro l hl ht; simpa using ht, by intro l' h'; simp at h'⟩
              | some len =>
                rw [readChunked_lf_stage1_some hp] at h
                by_cases hlen0 : len = 0
                · rw [if_pos hlen0] at h
                  injection h with hh1 hh2
                  subst hh1
                  subst hh2
                  exact ⟨[], by simp, by intro n hn; injection hn with h'; subst h'; simp,
                    by intro l hl ht; simpa using ht, by intro l' h'; simp at h'⟩
                · rw [if_neg hlen0] at h
                  cases hcheck : (match limit with
                    | some l => decide (total + len > l)
                    | none => false) with
                  | true =>
                    rw [hcheck, if_pos rfl] at h
                    injection h with hh1 hh2
                    subst hh1
                    subst hh2
                    refine ⟨[], by simp, by intro n hn; simp at hn,
                      by intro l hl ht; simpa using ht, ?_⟩
                    intro l' h'
                    cases limit with
                    | none => simp at hcheck
                    | some l =>
                      simp only [Option.getD_some, Except.error.injEq,
                        Error.sizeLimitExceeded.injEq] at h'
                      rw [h']
                  | false =>
                    rw [hcheck] at h
                    simp only [Bool.false_eq_true, if_false] at h
                    by_cases hshort : rest.length < len
                    · rw [if_pos hshort] at h
                      injection h with hh1 hh2
                      subst hh1
                      subst hh2
                      exact ⟨[], by simp, by intro n hn; simp at hn,
                        by intro l hl ht; simpa using ht, by intro l' h'; simp at h'⟩
                    · rw [if_neg hshort] at h
                      have hlen' : (rest.take len).length = len := by
                        simp [List.length_take]
                        omega
                      by_cases htrail : (rest.drop len).length < 2
                      · rw [if_pos htrail] at h
                        injection h with hh1 hh2
                        subst hh1
                        subst hh2
                        refine ⟨rest.take len, rfl, by intro n hn; simp at hn, ?_,
                          by intro l' h'; simp at h'⟩
                        intro l hl ht
                        rw [hl] at hcheck
                        simp at hcheck
                        rw [hlen']
                        omega
                      · rw [if_neg htrail] at h
                        obtain ⟨extra', hsrc, hok, hbound, hsl⟩ :=
                          ih (rest.drop (len + 2)) [] 0 (total + len)
                            (source ++ rest.take len) limit r src
                            (by simp [List.length_drop] at hle ⊢; omega) h
                        refine ⟨rest.take len ++ extra',
                          by rw [hsrc, List.append_assoc], ?_, ?_, hsl⟩
                        · intro n hn
                          have := hok n hn
                          simp only [List.length_append, hlen']
                          omega
                        · intro l hl ht
                          have hc : total + len ≤ l := by
                            rw [hl] at hcheck
                            simp at hcheck
                            omega
                          have := hbound l hl hc
                          simp only [List.length_append, hlen']
                          omega
            · rw [readChunked_lf_bad h1 h3] at h
              injection h with hh1 hh2
              subst hh1
              subst hh2
              exact ⟨[], by simp, by intro n hn; simp at hn,
                by intro l hl ht; simpa using ht, by intro l' h'; simp at h'⟩
        · rw [readChunked_other hb13 hb10] at h
          exact ih rest (buffer ++ [b]) stage total source limit r src
            (by simp at hle; omega) h

/-- Bytes that are neither CR nor LF are shifted verbatim into the size-line
buffer. -/
theorem readChunked_shift {hb : List Nat} (h : ∀ x ∈ hb, x ≠ 13 ∧ x ≠ 10) :
    ∀ (s buffer : List Nat) (stage total : Nat) (source : List Nat) (limit : Option Nat),
      readChunkedLoop (hb ++ s) buffer stage total source limit =
        readChunkedLoop s (buffer ++ hb) stage total source limit := by
  induction hb with
  | nil => intro s buffer stage total source limit; simp
  | cons x t ih =>
    intro s buffer stage total source limit
    obtain ⟨h13, h10⟩ := h x (by simp)
    rw [List.cons_append, readChunked_other h13 h10,
      ih (fun y hy => h y (by simp [hy]))]
    simp

/-- A stream with no CR/LF bytes left (a truncated size line) ends the loop
with `Ok total` and an untouched accumulator. -/
theorem readChunked_no_crlf {s : List Nat} (h : ∀ x ∈ s, x ≠ 13 ∧ x ≠ 10) :
    ∀ (buffer : List Nat) (stage total : Nat) (source : List Nat) (limit : Option Nat),
      readChunkedLoop s buffer stage total source limit = (.ok total, source) := by
  induction s with
  | nil => intro buffer stage total source limit; rw [readChunked_nil]
  | cons x t ih =>
    intro buffer stage total source limit
    obtain ⟨h13, h10⟩ := h x (by simp)
    rw [readChunked_other h13 h10, ih (fun y hy => h y (by simp [hy]))]

/-- Reading the terminating `0CRLF` size line ends the loop with `Ok`. -/
theorem readChunked_terminator (tail : List Nat) (total : Nat) (source : List Nat)
    (limit : Option Nat) :
    readChunkedLoop (48 :: 13 :: 10 :: tail) [] 0 total source limit =
      (.ok total, source) := by
  rw [readChunked_other (by decide) (by decide), readChunked_cr (Or.inl rfl)]
  simp only [List.nil_append, Nat.zero_add]
  rw [readChunked_lf_stage1_some (show parseHexSize [48] = some 0 from rfl)]
  simp

/-- Consuming one well-formed nonempty chunk: the data is committed and the
loop restarts on the remainder with the updated total. -/
theorem readChunked_chunk {d : List Nat} (hne : d ≠ []) (hlt : d.length < 2 ^ 63)
    {limit : Option Nat} {total : Nat}
    (hfit : ∀ l, limit = some l → total + d.length ≤ l) :
    ∀ (s : List Nat) (source : List Nat),
      readChunkedLoop (chunkEncode d ++ s) [] 0 total source limit =
        readChunkedLoop s [] 0 (total + d.length) (source ++ d) limit := by
  intro s source
  have hd0 : d.length ≠ 0 := fun h0 => hne (List.eq_nil_of_length_eq_zero h0)
  have hshape : chunkEncode d ++ s = hexBytes d.length ++ 13 :: 10 :: (d ++ 13 :: 10 :: s) := by
    simp [chunkEncode]
  have hhex : ∀ x ∈ hexBytes d.length, x ≠ 13 ∧ x ≠ 10 :=
    fun x hx => ⟨(hexBytes_head_not_sign hd0 x hx).1, (hexBytes_head_not_sign hd0 x hx).2.1⟩
  rw [hshape, readChunked_shift hhex _ [], List.nil_append, readChunked_cr (Or.inl rfl)]
  simp only [Nat.zero_add]
  rw [readChunked_lf_stage1_some (parseHexSize_hexBytes hd0 hlt), if_neg hd0]
  have hrlen : ¬(d ++ 13 :: 10 :: s).length < d.length := by simp [List.length_append]
  have htrail : ¬((d ++ 13 :: 10 :: s).drop d.length).length < 2 := by
    rw [List.drop_left]
    simp
  have hdrop2 : (d ++ 13 :: 10 :: s).drop (d.length + 2) = s := by
    rw [show d ++ 13 :: 10 :: s = (d ++ [13, 10]) ++ s by simp,
      show d.length + 2 = (d ++ [13, 10]).length by simp,
      List.drop_left]
  cases limit with
  | none =>
    rw [if_neg (by simp), if_neg hrlen, if_neg htrail, List.take_left, hdrop2]
  | some l =>
    have hfl := hfit l rfl
    rw [if_neg (by simp; omega), if_neg hrlen, if_neg htrail, List.take_left, hdrop2]

/-- A chunk whose size would cross the ceiling fails before committing. -/
theorem readChunked_chunk_over {d : List Nat} (hne : d ≠ []) (hlt : d.length < 2 ^ 63)
    {l total : Nat} (hover : total + d.length > l) :
    ∀ (s : List Nat) (source : List Nat),
      readChunkedLoop (chunkEncode d ++ s) [] 0 total source (some l) =
        (.error (.sizeLimitExceeded l), source) := by
  intro s source
  have hd0 : d.length ≠ 0 := fun h0 => hne (List.eq_nil_of_length_eq_zero h0)
  have hshape : chunkEncode d ++ s = hexBytes d.length ++ 13 :: 10 :: (d ++ 13 :: 10 :: s) := by
    simp [chunkEncode]
  have hhex : ∀ x ∈ hexBytes d.length, x ≠ 13 ∧ x ≠ 10 :=
    fun x hx => ⟨(hexBytes_head_not_sign hd0 x hx).1, (hexBytes_head_not_sign hd0 x hx).2.1⟩
  rw [hshape, readChunked_shift hhex _ [], List.nil_append, readChunked_cr (Or.inl rfl)]
  simp only [Nat.zero_add]
  rw [readChunked_lf_stage1_some (parseHexSize_hexBytes hd0 hlt), if_neg hd0]
  rw [if_pos (by simp; omega)]
  simp

/-- Decoding a sequence of well-formed chunks commits exactly their payload. -/
theorem readChunked_chunks {ds : List (List Nat)} {limit : Option Nat} :
    (∀ d ∈ ds, d ≠ [] ∧ d.length < 2 ^ 63) →
    ∀ (total : Nat), (∀ l, limit = some l → total + chunksPayload ds ≤ l) →
    ∀ (s source : List Nat),
      readChunkedLoop (chunksRaw ds ++ s) [] 0 total source limit =
        readChunkedLoop s [] 0 (total + chunksPayload ds) (source ++ ds.flatten) limit := by
  induction ds with
  | nil =>
    intro _ total _ s source
    simp [chunksRaw, chunksPayload]
  | cons d t ih =>
    intro hwf total hfit s source
    have hd := hwf d (by simp)
    have hshape : chunksRaw (d :: t) ++ s = chunkEncode d ++ (chunksRaw t ++ s) := by
      simp [chunksRaw]
    have hpay : chunksPayload (d :: t) = d.length + chunksPayload t := by
      simp [chunksPayload]
    have hfit1 : ∀ l, limit = some l → total + d.length ≤ l := by
      intro l hl
      have := hfit l hl
      rw [hpay] at this
      omega
    have hfit2 : ∀ l, limit = some l → total + d.length + chunksPayload t ≤ l := by
      intro l hl
      have := hfit l hl
      rw [hpay] at this
      omega
    rw [hshape, readChunked_chunk hd.1 hd.2 hfit1 _ _,
      ih (fun x hx => hwf x (by simp [hx])) (total + d.length) hfit2 s (source ++ d),
      hpay, List.flatten_cons, Nat.add_assoc, List.append_assoc]

/-- When the total payload of the encoded chunks crosses the ceiling, the
decoder fails with `SizeLimitExceeded` at the offending chunk boundary. -/
theorem readChunked_chunks_over {ds : List (List Nat)} {l : Nat} :
    (∀ d ∈ ds, d ≠ [] ∧ d.length < 2 ^ 63) →
    ∀ (total : Nat), total ≤ l → l < total + chunksPayload ds →
    ∀ (s source : List Nat),
      (readChunkedLoop (chunksRaw ds ++ s) [] 0 total source (some l)).1 =
        .error (.sizeLimitExceeded l) := by
  induction ds with
  | nil =>
    intro _ total h1 h2 s source
    simp [chunksPayload] at h2
    omega
  | cons d t ih =>
    intro hwf total h1 h2 s source
    have hd := hwf d (by simp)
    have hpay : chunksPayload (d :: t) = d.length + chunksPayload t := by
      simp [chunksPayload]
    have hshape : chunksRaw (d :: t) ++ s = chunkEncode d ++ (chunksRaw t ++ s) := by
      simp [chunksRaw]
    rw [hshape]
    by_cases hcross : total + d.length > l
    · rw [readChunked_chunk_over hd.1 hd.2 hcross _ _]
    · have hfit1 : ∀ l', some l = some l' → total + d.length ≤ l' := by
        intro l' hl'
        injection hl' with he
        omega
      rw [readChunked_chunk hd.1 hd.2 hfit1 _ _]
      exact ih (fun x hx => hwf x (by simp [hx])) (total + d.length) (by omega)
        (by rw [hpay] at h2; omega) s (source ++ d)

/-! ### Claim theorems -/

/-- C4: for every requested length greater than what the stream supplies,
`read_sized_stream` fails with `StreamNotReadable` (accumulator untouched),
while `relay_sized_stream` on the same short input stops cleanly when a read
returns zero bytes and returns `Ok` with only the available bytes forwarded. -/
theorem C4_sized_reader_relay_asymmetry :
    ∀ (stream source output : List Nat) (length : Nat),
      stream.length < length →
      read_sized_stream stream source length = (.error .streamNotReadable, source) ∧
      relay_sized_stream stream output length = (.ok stream.length, output ++ stream) := by
  intro stream source output length h
  constructor
  · unfold read_sized_stream
    rw [if_pos h]
  · exact relay_sized_stream_short output h

theorem C4_witness :
    read_sized_stream [1, 2, 3] [] 5 = (.error .streamNotReadable, []) ∧
    relay_sized_stream [1, 2, 3] [9] 5 = (.ok 3, [9, 1, 2, 3]) := by
  have h := C4_sized_reader_relay_asymmetry [1, 2, 3] [] [9] 5 (by decide)
  exact ⟨h.1, by simpa using h.2⟩

/-- C10: whenever fewer than 5 bytes have accumulated in the trailing window
of the chunked relay when the `buffer[buffer.len()-5..]` slice is taken
(e.g. the very first read returns 0 bytes on an already-exhausted stream, or
the whole stream is shorter than 5 bytes), the usize index subtraction
underflows and the operation panics instead of returning an error. -/
theorem C10_relay_chunked_window_underflow :
    (∀ (input output buffer : List Nat) (count : Nat) (limit : Option Nat),
      (∀ l, limit = some l → count < l) →
      buffer.length + min 1024 input.length < 5 →
      (relayChunkedLoop input output buffer count limit).1 = .panic) ∧
    (∀ (input output : List Nat), input.length < 5 →
      (relay_chunked_stream input output none).1 = .panic) := by
  constructor
  · intro input output buffer count limit h1 h2
    exact relayChunkedLoop_panic h1 h2
  · intro input output h
    unfold relay_chunked_stream
    exact relayChunkedLoop_panic (by simp) (by simp; omega)

theorem C10_witness :
    (relayChunkedLoop [] [] [] 0 none).1 = .panic ∧
    (relay_chunked_stream [] [] none).1 = .panic :=
  ⟨C10_relay_chunked_window_underflow.1 [] [] [] 0 none (by simp) (by decide),
   C10_relay_chunked_window_underflow.2 [] [] (by decide)⟩

/-- Wire encoding of one chunk with an explicit size line (not necessarily
canonical hex): `<sizeline>CRLF<data>CRLF`. -/
def chunkEncodeWith (sl d : List Nat) : List Nat :=
  sl ++ [13, 10] ++ d ++ [13, 10]

/-- Concatenated wire encoding of chunks with explicit size lines. -/
def chunksRawWith (cs : List (List Nat × List Nat)) : List Nat :=
  (cs.map fun p => chunkEncodeWith p.1 p.2).flatten

/-- Consuming one chunk whose size line is any CR/LF-free byte sequence the
hex parser accepts for the data's length: the data is committed atomically
and the loop restarts on the remainder. -/
theorem readChunked_chunkWith {sl d : List Nat}
    (hsl : ∀ b ∈ sl, b ≠ 13 ∧ b ≠ 10) (hp : parseHexSize sl = some d.length)
    (hne : d ≠ []) {limit : Option Nat} {total : Nat}
    (hfit : ∀ l, limit = some l → total + d.length ≤ l) :
    ∀ (s source : List Nat),
      readChunkedLoop (chunkEncodeWith sl d ++ s) [] 0 total source limit =
        readChunkedLoop s [] 0 (total + d.length) (source ++ d) limit := by
  intro s source
  have hd0 : d.length ≠ 0 := fun h0 => hne (List.eq_nil_of_length_eq_zero h0)
  have hshape : chunkEncodeWith sl d ++ s = sl ++ 13 :: 10 :: (d ++ 13 :: 10 :: s) := by
    simp [chunkEncodeWith]
  rw [hshape, readChunked_shift hsl _ [], List.nil_append, readChunked_cr (Or.inl rfl)]
  simp only [Nat.zero_add]
  rw [readChunked_lf_stage1_some hp, if_neg hd0]
  have hrlen : ¬(d ++ 13 :: 10 :: s).length < d.length := by simp [List.length_append]
  have htrail : ¬((d ++ 13 :: 10 :: s).drop d.length).length < 2 := by
    rw [List.drop_left]
    simp
  have hdrop2 : (d ++ 13 :: 10 :: s).drop (d.length + 2) = s := by
    rw [show d ++ 13 :: 10 :: s = (d ++ [13, 10]) ++ s by simp,
      show d.length + 2 = (d ++ [13, 10]).length by simp,
      List.drop_left]
  cases limit with
  | none =>
    rw [if_neg (by simp), if_neg hrlen, if_neg htrail, List.take_left, hdrop2]
  | some l =>
    have hfl := hfit l rfl
    rw [if_neg (by simp; omega), if_neg hrlen, if_neg htrail, List.take_left, hdrop2]

/-- A size line declaring a length that would cross the ceiling makes the
decoder fail with `SizeLimitExceeded` immediately after the size line's LF:
whatever follows (`rest` — the would-be chunk data) is never read, and the
accumulator is returned untouched. -/
theorem readChunked_sizeline_over {sl : List Nat} {len : Nat}
    (hsl : ∀ b ∈ sl, b ≠ 13 ∧ b ≠ 10) (hp : parseHexSize sl = some len)
    (hlen : len ≠ 0) {L total : Nat} (hover : total + len > L) :
    ∀ (rest source : List Nat),
      readChunkedLoop (sl ++ 13 :: 10 :: rest) [] 0 total source (some L) =
        (.error (.sizeLimitExceeded L), source) := by
  intro rest source
  rw [readChunked_shift hsl _ [], List.nil_append, readChunked_cr (Or.inl rfl)]
  simp only [Nat.zero_add]
  rw [readChunked_lf_stage1_some hp, if_neg hlen, if_pos (by simp; omega)]
  simp

/-- Decoding a sequence of chunks with explicit accepted size lines commits
exactly their data, chunk by chunk. -/
theorem readChunked_chunksWith {cs : List (List Nat × List Nat)} {limit : Option Nat} :
    (∀ p ∈ cs, (∀ b ∈ p.1, b ≠ 13 ∧ b ≠ 10) ∧ parseHexSize p.1 = some p.2.length ∧
      p.2 ≠ []) →
    ∀ (total : Nat),
      (∀ l, limit = some l → total + chunksPayload (cs.map Prod.snd) ≤ l) →
    ∀ (s source : List Nat),
      readChunkedLoop (chunksRawWith cs ++ s) [] 0 total source limit =
        readChunkedLoop s [] 0 (total + chunksPayload (cs.map Prod.snd))
          (source ++ (cs.map Prod.snd).flatten) limit := by
  induction cs with
  | nil =>
    intro _ total _ s source
    simp [chunksRawWith, chunksPayload]
  | cons p t ih =>
    intro hwf total hfit s source
    have hp := hwf p (by simp)
    have hshape : chunksRawWith (p :: t) ++ s = chunkEncodeWith p.1 p.2 ++ (chunksRawWith t ++ s) := by
      simp [chunksRawWith]
    have hpay : chunksPayload ((p :: t).map Prod.snd) =
        p.2.length + chunksPayload (t.map Prod.snd) := by
      simp [chunksPayload]
    have hfit1 : ∀ l, limit = some l → total + p.2.length ≤ l := by
      intro l hl
      have := hfit l hl
      rw [hpay] at this
      omega
    have hfit2 : ∀ l, limit = some l →
        total + p.2.length + chunksPayload (t.map Prod.snd) ≤ l := by
      intro l hl
      have := hfit l hl
      rw [hpay] at this
      omega
    rw [hshape, readChunked_chunkWith hp.1 hp.2.1 hp.2.2 hfit1 _ _,
      ih (fun x hx => hwf x (by simp [hx])) (total + p.2.length) hfit2 s (source ++ p.2),
      hpay, List.map_cons, List.flatten_cons, Nat.add_assoc, List.append_assoc]

/-- C2: for every ceiling `L` and every stream shaped as any number of
complete chunks (arbitrary CR/LF-free size lines the hex parser accepts)
that fit under `L`, followed by a size line whose declared length would
cross `L`, the decoder fails with `SizeLimitExceeded(L)` and the final
accumulator is *exactly* the initial accumulator plus the whole committed
chunks: the offending chunk contributes nothing — its data (`rest`)
is arbitrary and never even read, since the error is raised at the
pre-commit check right after the size line.  In addition, on *any* input
stream whatsoever, a `SizeLimitExceeded(l')` failure carries the configured
ceiling (`l' = L`) and the accumulator has grown by at most `L` bytes (the
committed total never crosses the ceiling). -/
theorem C2_no_partial_chunk_commit :
    (∀ (cs : List (List Nat × List Nat)) (sl : List Nat) (len : Nat)
      (rest source : List Nat) (L : Nat),
      (∀ p ∈ cs, (∀ b ∈ p.1, b ≠ 13 ∧ b ≠ 10) ∧ parseHexSize p.1 = some p.2.length ∧
        p.2 ≠ []) →
      (∀ b ∈ sl, b ≠ 13 ∧ b ≠ 10) →
      parseHexSize sl = some len →
      len ≠ 0 →
      chunksPayload (cs.map Prod.snd) ≤ L →
      L < chunksPayload (cs.map Prod.snd) + len →
      read_chunked_stream (chunksRawWith cs ++ (sl ++ 13 :: 10 :: rest)) source (some L) =
        (.error (.sizeLimitExceeded L), source ++ (cs.map Prod.snd).flatten)) ∧
    (∀ (stream source : List Nat) (L l' : Nat),
      (read_chunked_stream stream source (some L)).1 = .error (.sizeLimitExceeded l') →
      l' = L ∧ (read_chunked_stream stream source (some L)).2.length ≤ source.length + L) := by
  constructor
  · intro cs sl len rest source L hwf hsl hp hlen hfits hover
    unfold read_chunked_stream
    rw [readChunked_chunksWith hwf 0 (fun l hl => by injection hl with he; omega)
        (sl ++ 13 :: 10 :: rest) source,
      readChunked_sizeline_over hsl hp hlen (by omega) rest _]
  · intro stream source L l' herr
    obtain ⟨extra, hsrc, -, hbound, hslim⟩ :=
      readChunkedLoop_spec stream.length stream [] 0 0 source (some L)
        (read_chunked_stream stream source (some L)).1
        (read_chunked_stream stream source (some L)).2 le_rfl rfl
    have hlim := hslim l' herr
    injection hlim with he
    refine ⟨he.symm, ?_⟩
    rw [hsrc]
    have := hbound L rfl (by omega)
    simp [List.length_append]
    omega

theorem C2_witness :
    read_chunked_stream
        (chunksRawWith [([51], [97, 98, 99])] ++ ([51] ++ 13 :: 10 :: [100, 101])) []
        (some 4) =
      (.error (.sizeLimitExceeded 4), [] ++ ([([51], [97, 98, 99])].map Prod.snd).flatten) :=
  C2_no_partial_chunk_commit.1 [([51], [97, 98, 99])] [51] 3 [100, 101] [] 4
    (by decide) (by decide) (by decide) (by decide) (by decide) (by decide)

/-- C9 (counterexample): a chunked stream truncated inside a chunk's data
(`"6\r\nHel"`) makes the decoder fail with `StreamNotReadable`, not report
success with a partial body. -/
theorem C9_counterexample :
    read_chunked_stream [54, 13, 10, 72, 101, 108] [] none =
      (.error .streamNotReadable, []) := by
  simp [read_chunked_stream, readChunkedLoop, parseHexSize, hexVal, hexDigitVal]

/-- C9 (amended): end-of-stream is reported as success only when it happens
at a size-line boundary: after any number of complete well-formed chunks, a
truncated size line (no CR/LF bytes left) makes `read_chunked_stream` return
`Ok` with exactly the committed payload; truncation inside chunk data fails
with `StreamNotReadable` instead (see the counterexample). -/
theorem C9_amended_truncated_chunked :
    ∀ (ds : List (List Nat)) (trunc source : List Nat) (limit : Option Nat),
      (∀ d ∈ ds, d ≠ [] ∧ d.length < 2 ^ 63) →
      (∀ l, limit = some l → chunksPayload ds ≤ l) →
      (∀ b ∈ trunc, b ≠ 13 ∧ b ≠ 10) →
      read_chunked_stream (chunksRaw ds ++ trunc) source limit =
        (.ok (chunksPayload ds), source ++ ds.flatten) := by
  intro ds trunc source limit hwf hfit htr
  unfold read_chunked_stream
  rw [readChunked_chunks hwf 0 (fun l hl => by simpa using hfit l hl) trunc source,
    readChunked_no_crlf htr]
  simp

theorem C9_witness :
    read_chunked_stream (chunksRaw [[72, 105]] ++ [54]) [] none =
      (.ok (chunksPayload [[72, 105]]), [] ++ [[72, 105]].flatten) :=
  C9_amended_truncated_chunked [[72, 105]] [54] [] none (by decide) (by simp) (by decide)

/-- `Body::read_chunked` on a fresh body with ceiling `L ≠ 0` simply wraps
`read_chunked_stream` with budget `L`. -/
theorem body_read_chunked_fresh (L : Nat) (hL : L ≠ 0) (stream : List Nat) :
    Body.read_chunked ⟨[], 0, some L⟩ stream =
      (match read_chunked_stream stream [] (some L) with
       | (.ok n, src) => (.ok n, ⟨src, n, some L⟩)
       | (.error e, src) => (.error e, ⟨src, 0, some L⟩)) := by
  unfold Body.read_chunked
  simp [hL]

/-- C1 (amended): with a fresh `Body`/`Relay` and ceiling `L`, the sized
operations succeed iff the requested size `S` fits under `L` (given an
adequate stream) and otherwise fail with `SizeLimitExceeded(L)` before
touching the stream, and `Body::read_chunked` on a well-formed chunked
stream (ceiling `L > 0`) succeeds iff the decoded payload fits under `L`,
failing with `SizeLimitExceeded(L)` otherwise.  (The chunked relay and the
raw stream primitives do not satisfy this equivalence — see the
counterexample.) -/
theorem C1_amended_size_ceiling :
    ∀ (L S : Nat) (stream input output : List Nat) (ds : List (List Nat)),
      (S ≤ stream.length →
        (L < S → Body.read_sized ⟨[], 0, some L⟩ stream S =
          (.error (.sizeLimitExceeded L), ⟨[], 0, some L⟩)) ∧
        (S ≤ L → (Body.read_sized ⟨[], 0, some L⟩ stream S).1 = .ok S)) ∧
      (input.length = S →
        (L < S → Relay.relay_sized ⟨0, some L⟩ input output S =
          (.error (.sizeLimitExceeded L), ⟨0, some L⟩, output)) ∧
        (S ≤ L → (Relay.relay_sized ⟨0, some L⟩ input output S).1 = .ok S)) ∧
      (0 < L → (∀ d ∈ ds, d ≠ [] ∧ d.length < 2 ^ 63) →
        (L < chunksPayload ds →
          (Body.read_chunked ⟨[], 0, some L⟩ (chunksRaw ds ++ [48, 13, 10])).1 =
            .error (.sizeLimitExceeded L)) ∧
        (chunksPayload ds ≤ L →
          (Body.read_chunked ⟨[], 0, some L⟩ (chunksRaw ds ++ [48, 13, 10])).1 =
            .ok (chunksPayload ds))) := by
  intro L S stream input output ds
  refine ⟨?_, ?_, ?_⟩
  · intro hadeq
    constructor
    · intro hLS
      simp only [Body.read_sized]
      rw [if_pos (show (decide (S + 0 > L)) = true by simp; omega)]
      rfl
    · intro hSL
      simp only [Body.read_sized]
      rw [if_neg (show ¬(decide (S + 0 > L)) = true by simp; omega)]
      simp only [read_sized_stream]
      rw [if_neg (show ¬stream.length < S by omega)]
  · intro hIS
    constructor
    · intro hLS
      simp only [Relay.relay_sized]
      rw [if_pos (show (decide (S + 0 > L)) = true by simp; omega)]
      rfl
    · intro hSL
      simp only [Relay.relay_sized]
      rw [if_neg (show ¬(decide (S + 0 > L)) = true by simp; omega),
        relay_sized_stream_exact output hIS]
  · intro hL hwf
    constructor
    · intro hover
      rcases hre : read_chunked_stream (chunksRaw ds ++ [48, 13, 10]) [] (some L)
        with ⟨r, src⟩
      have h1 : r = .error (.sizeLimitExceeded L) := by
        have hmain : (readChunkedLoop (chunksRaw ds ++ [48, 13, 10]) [] 0 0 [] (some L)).1 =
            .error (.sizeLimitExceeded L) :=
          readChunked_chunks_over hwf 0 (by omega) (by omega) [48, 13, 10] []
        rw [read_chunked_stream] at hre
        rw [hre] at hmain
        simpa using hmain
      rw [body_read_chunked_fresh L (by omega), hre, h1]
    · intro hfit
      have hms : readChunkedLoop (chunksRaw ds ++ [48, 13, 10]) [] 0 0 [] (some L) =
          readChunkedLoop [48, 13, 10] [] 0 (0 + chunksPayload ds) ([] ++ ds.flatten)
            (some L) :=
        readChunked_chunks hwf 0 (fun l hl => by injection hl with he; omega) [48, 13, 10] []
      rw [body_read_chunked_fresh L (by omega)]
      rw [read_chunked_stream, hms, readChunked_terminator]
      simp

/-- C1 (counterexample): with ceiling 5, `Relay::relay_chunked` on the
27-byte chunked stream `"6\r\nHello \r\n6\r\nWorld!\r\n0\r\n\r\n"` —
whose decoded payload is 12 bytes, exceeding the ceiling — returns
`Ok 27` instead of failing with `SizeLimitExceeded(5)`: the relay's
loop-top check counts relayed wire bytes and never inspects the decoded
payload, so a terminator inside the first window ends the relay
successfully. -/
theorem C1_counterexample :
    (Relay.relay_chunked ⟨0, some 5⟩
      [54, 13, 10, 72, 101, 108, 108, 111, 32, 13, 10, 54, 13, 10, 87, 111, 114, 108,
        100, 33, 13, 10, 48, 13, 10, 13, 10] []).1 = .ok 27 ∧
    (read_chunked_stream
      [54, 13, 10, 72, 101, 108, 108, 111, 32, 13, 10, 54, 13, 10, 87, 111, 114, 108,
        100, 33, 13, 10, 48, 13, 10, 13, 10] [] none).1 = .ok 12 ∧
    5 < 12 := by
  refine ⟨?_, ?_, by norm_num⟩
  · simp [Relay.relay_chunked, relay_chunked_stream, relayChunkedLoop, has_sequence,
      hasSequenceLoop]
  · simp [read_chunked_stream, readChunkedLoop, parseHexSize, hexVal, hexDigitVal]

theorem C1_witness :
    (Body.read_sized ⟨[], 0, some 2⟩ [7] 1).1 = .ok 1 ∧
    (Relay.relay_sized ⟨0, some 2⟩ [8] [] 1).1 = .ok 1 ∧
    (Body.read_chunked ⟨[], 0, some 2⟩ (chunksRaw [[9]] ++ [48, 13, 10])).1 =
      .ok (chunksPayload [[9]]) :=
  ⟨((C1_amended_size_ceiling 2 1 [7] [8] [] [[9]]).1 (by decide)).2 (by decide),
   ((C1_amended_size_ceiling 2 1 [7] [8] [] [[9]]).2.1 (by decide)).2 (by decide),
   ((C1_amended_size_ceiling 2 1 [7] [8] [] [[9]]).2.2 (by decide) (by decide)).2 (by decide)⟩

/-- Modelled from the spec: "`length == size of buffer` at all times; if a
ceiling is set, `length` never exceeds it". -/
def bodyInvariant (b : Body) : Prop :=
  b.length = b.bytes.length ∧ ∀ l, b.length_limit = some l → b.length ≤ l

theorem body_read_sized_ok_WF {b : Body} {stream : List Nat} {S n : Nat} {b' : Body}
    (hb : bodyInvariant b) (h : Body.read_sized b stream S = (.ok n, b')) :
    bodyInvariant b' := by
  rcases hcl : b.length_limit with _ | l
  · simp only [Body.read_sized, hcl, Bool.false_eq_true, if_false] at h
    by_cases hs : stream.length < S
    · simp only [read_sized_stream, if_pos hs] at h
      simp at h
    · simp only [read_sized_stream, if_neg hs] at h
      injection h with h1 h2
      subst h2
      refine ⟨?_, ?_⟩
      · simp [hb.1, List.length_take]
        omega
      · intro l hl
        simp [hcl] at hl
  · by_cases hc : S + b.length > l
    · simp only [Body.read_sized, hcl] at h
      rw [if_pos (show (decide (S + b.length > l)) = true by simp; omega)] at h
      simp at h
    · simp only [Body.read_sized, hcl] at h
      rw [if_neg (show ¬(decide (S + b.length > l)) = true by simp; omega)] at h
      by_cases hs : stream.length < S
      · simp only [read_sized_stream, if_pos hs] at h
        simp at h
      · simp only [read_sized_stream, if_neg hs] at h
        injection h with h1 h2
        subst h2
        refine ⟨?_, ?_⟩
        · simp [hb.1, List.length_take]
          omega
        · intro l' hl'
          simp [hcl] at hl'
          subst hl'
          simp
          omega

theorem body_read_chunked_WF {b : Body} {stream : List Nat} {r : Except Error Nat}
    {b' : Body} (hb : bodyInvariant b) (h : Body.read_chunked b stream = (r, b')) :
    (∀ n, r = .ok n → bodyInvariant b') ∧
    b'.length ≤ b'.bytes.length ∧ (∀ l, b'.length_limit = some l → b'.length ≤ l) := by
  rcases hcl : b.length_limit with _ | l
  · simp only [Body.read_chunked, hcl] at h
    rcases hre : read_chunked_stream stream b.bytes none with ⟨r0, src⟩
    rw [hre] at h
    obtain ⟨extra, hsrc, hok, -, -⟩ :=
      readChunkedLoop_spec stream.length stream [] 0 0 b.bytes none r0 src le_rfl hre
    cases r0 with
    | ok n0 =>
      injection h with h1 h2
      subst h1
      subst h2
      have hn0 : n0 = extra.length := by simpa using hok n0 rfl
      refine ⟨?_, ?_, ?_⟩
      · intro n hn
        refine ⟨?_, ?_⟩
        · simp [hsrc, hb.1, hn0]
        · intro l hl
          simp [hcl] at hl
      · simp [hsrc, hb.1, hn0]
      · intro l hl
        simp [hcl] at hl
    | error e =>
      injection h with h1 h2
      subst h1
      subst h2
      refine ⟨?_, ?_, ?_⟩
      · intro n hn
        simp at hn
      · simp [hsrc, hb.1]
      · intro l hl
        simp [hcl] at hl
  · by_cases hl0 : l = 0
    · subst hl0
      simp only [Body.read_chunked, hcl, if_pos rfl] at h
      injection h with h1 h2
      subst h1
      subst h2
      exact ⟨fun n hn => by simp at hn, le_of_eq hb.1, hb.2⟩
    · simp only [Body.read_chunked, hcl, if_neg hl0] at h
      rcases hre : read_chunked_stream stream b.bytes (some (l - b.length)) with ⟨r0, src⟩
      rw [hre] at h
      obtain ⟨extra, hsrc, hok, hbound, -⟩ :=
        readChunkedLoop_spec stream.length stream [] 0 0 b.bytes (some (l - b.length))
          r0 src le_rfl hre
      have hblen : b.length ≤ l := hb.2 l hcl
      have hext : extra.length ≤ l - b.length := by
        have := hbound (l - b.length) rfl (by omega)
        omega
      cases r0 with
      | ok n0 =>
        injection h with h1 h2
        subst h1
        subst h2
        have hn0 : n0 = extra.length := by simpa using hok n0 rfl
        refine ⟨?_, ?_, ?_⟩
        · intro n hn
          refine ⟨?_, ?_⟩
          · simp [hsrc, hb.1, hn0]
          · intro l' hl'
            simp [hcl] at hl'
            subst hl'
            simp [hn0]
            omega
        · simp [hsrc, hb.1, hn0]
        · intro l' hl'
          simp [hcl] at hl'
          subst hl'
          simp [hn0]
          omega
      | error e =>
        injection h with h1 h2
        subst h1
        subst h2
        refine ⟨?_, ?_, ?_⟩
        · intro n hn
          simp at hn
        · simp [hsrc, hb.1]
        · intro l' hl'
          simp [hcl] at hl'
          subst hl'
          simp
          omega

/-- C5 (amended): the invariant `length == bytes.len()` (and `length` within
any configured ceiling) holds for a fresh `Body`, is preserved by `clear` and
by every *successful* `read_sized`, `read_chunked` and `read` call; after a
*failed* `read_chunked` only the weaker facts survive: `length` never
exceeds the buffer size or the ceiling, but committed chunk bytes may sit in
the buffer without being counted (see the counterexample). -/
theorem C5_amended_body_invariant :
    bodyInvariant Body.new ∧
    (∀ b : Body, bodyInvariant b.clear) ∧
    (∀ (b : Body) (stream : List Nat) (S n : Nat) (b' : Body),
      bodyInvariant b → Body.read_sized b stream S = (.ok n, b') → bodyInvariant b') ∧
    (∀ (b : Body) (stream : List Nat) (n : Nat) (b' : Body),
      bodyInvariant b → Body.read_chunked b stream = (.ok n, b') → bodyInvariant b') ∧
    (∀ (b : Body) (stream : List Nat) (res : List (List Char × List Char)) (n : Nat)
      (b' : Body),
      bodyInvariant b → Body.read b stream res = (.ok n, b') → bodyInvariant b') ∧
    (∀ (b : Body) (stream : List Nat) (r : Except Error Nat) (b' : Body),
      bodyInvariant b → Body.read_chunked b stream = (r, b') →
      b'.length ≤ b'.bytes.length ∧ ∀ l, b'.length_limit = some l → b'.length ≤ l) := by
  refine ⟨⟨rfl, by simp [Body.new]⟩, fun b => ⟨rfl, by simp [Body.clear]⟩, ?_, ?_, ?_, ?_⟩
  · intro b stream S n b' hb h
    exact body_read_sized_ok_WF hb h
  · intro b stream n b' hb h
    exact (body_read_chunked_WF hb h).1 n rfl
  · intro b stream res n b' hb h
    simp only [Body.read] at h
    rcases henc : res.lookup "Transfer-Encoding".toList with _ | enc
    · simp only [henc] at h
      simp only [Bool.false_eq_true, if_false] at h
      rcases hlen : res.lookup "Content-Length".toList with _ | cl
      · simp only [hlen] at h
        simp at h
      · simp only [hlen] at h
        rcases hpu : parseUsize cl with _ | S
        · simp only [hpu] at h
          simp at h
        · simp only [hpu] at h
          exact body_read_sized_ok_WF hb h
    · simp only [henc] at h
      by_cases hch : strContains "chunked".toList enc = true
      · rw [if_pos hch] at h
        exact (body_read_chunked_WF hb h).1 n rfl
      · rw [if_neg hch] at h
        rcases hlen : res.lookup "Content-Length".toList with _ | cl
        · simp only [hlen] at h
          simp at h
        · simp only [hlen] at h
          rcases hpu : parseUsize cl with _ | S
          · simp only [hpu] at h
            simp at h
          · simp only [hpu] at h
            exact body_read_sized_ok_WF hb h
  · intro b stream r b' hb h
    exact (body_read_chunked_WF hb h).2

/-- C5 (counterexample): `Body::read_chunked` on
`"6\r\nHello \r\n6\r\nWor"` (second chunk truncated) fails with
`StreamNotReadable` after committing the first chunk to `bytes` via the
`&mut` accumulator, but `length` — only updated on success — stays 0, so
`length == size of buffer` does not hold after the failed call. -/
theorem C5_counterexample :
    (Body.read_chunked Body.new
      [54, 13, 10, 72, 101, 108, 108, 111, 32, 13, 10, 54, 13, 10, 87, 111, 114]).1 =
      .error .streamNotReadable ∧
    (Body.read_chunked Body.new
      [54, 13, 10, 72, 101, 108, 108, 111, 32, 13, 10, 54, 13, 10, 87, 111, 114]).2.bytes.length = 6 ∧
    (Body.read_chunked Body.new
      [54, 13, 10, 72, 101, 108, 108, 111, 32, 13, 10, 54, 13, 10, 87, 111, 114]).2.length = 0 := by
  refine ⟨?_, ?_, ?_⟩ <;>
    simp [Body.new, Body.read_chunked, read_chunked_stream, readChunkedLoop,
      parseHexSize, hexVal, hexDigitVal]

theorem C5_witness :
    bodyInvariant Body.new ∧ bodyInvariant (Body.read_sized ⟨[], 0, some 3⟩ [7, 8] 2).2 :=
  ⟨C5_amended_body_invariant.1,
   C5_amended_body_invariant.2.2.1 ⟨[], 0, some 3⟩ [7, 8] 2 2
     (Body.read_sized ⟨[], 0, some 3⟩ [7, 8] 2).2
     ⟨rfl, by simp⟩ (by simp [Body.read_sized, read_sized_stream])⟩

/-- C6 (counterexample): parsing `"HTTP/1.1 200 OK\r\nH: V\r\n\r\n"` via
`read_string`/`parse_head`/`parse_headers` leaves the status message unset —
`Response::parse_head` never reads the third token — and stores the version
in canonical form `"1.1"`, not `"HTTP/1.1"`. -/
theorem C6_counterexample :
    (responseParsePipeline "HTTP/1.1 200 OK\r\nH: V\r\n\r\n".toList).2.status_message =
      none ∧
    (responseParsePipeline "HTTP/1.1 200 OK\r\nH: V\r\n\r\n".toList).2.version =
      some "1.1".toList ∧
    some "1.1".toList ≠ some "HTTP/1.1".toList := by
  refine ⟨?_, ?_, by decide⟩ <;> decide

/-- C6 (amended): parsing `"HTTP/1.1 200 OK\r\nH: V\r\n\r\n"` through the
two-phase pipeline succeeds and yields version `"1.1"` (the canonical form
of HTTP/1.1), status code 200, exactly the header pair `H ↦ V`, and an
unset status message (the reason phrase is not extracted). -/
theorem C6_amended_status_line_parse :
    (responseParsePipeline "HTTP/1.1 200 OK\r\nH: V\r\n\r\n".toList).1 = .ok () ∧
    (responseParsePipeline "HTTP/1.1 200 OK\r\nH: V\r\n\r\n".toList).2.version =
      some "1.1".toList ∧
    (responseParsePipeline "HTTP/1.1 200 OK\r\nH: V\r\n\r\n".toList).2.status_code =
      some 200 ∧
    (responseParsePipeline "HTTP/1.1 200 OK\r\nH: V\r\n\r\n".toList).2.status_message =
      none ∧
    (responseParsePipeline "HTTP/1.1 200 OK\r\nH: V\r\n\r\n".toList).2.headers =
      [("H".toList, "V".toList)] := by
  refine ⟨?_, ?_, ?_, ?_, ?_⟩ <;> rfl

/-- An LF reached while no CR has ever been seen (stage still 0) is rejected
with `InvalidData`, provided the 265-byte cap is not hit first. -/
theorem readHeadLoop_lf_no_cr :
    ∀ (pre rest : List Nat) (buff : List Char) (parts : List (List Char)) (length : Nat),
      (∀ b ∈ pre, b ≠ 13 ∧ b ≠ 10) →
      length + pre.length + 1 < 265 →
      (readHeadLoop (pre ++ 10 :: rest) buff parts length 0).1 = .error .invalidData := by
  intro pre
  induction pre with
  | nil =>
    intro rest buff parts length h hl
    simp only [List.nil_append, readHeadLoop]
    rw [if_neg (by omega), if_neg (by decide), if_neg (by decide)]
    simp
  | cons b t ih =>
    intro rest buff parts length h hl
    obtain ⟨h13, h10⟩ := h b (by simp)
    simp only [List.cons_append, readHeadLoop]
    rw [if_neg (show ¬length + 1 = 265 by simp at hl; omega)]
    by_cases h32 : b = 32
    · rw [if_pos h32]
      exact ih rest [] (parts ++ [buff]) (length + 1)
        (fun x hx => h x (by simp [hx])) (by simp at hl ⊢; omega)
    · rw [if_neg h32, if_neg h13, if_neg h10]
      exact ih rest (buff ++ [Char.ofNat b]) parts (length + 1)
        (fun x hx => h x (by simp [hx])) (by simp at hl ⊢; omega)

/-- C7 (amended): `read_head` rejects an LF with `InvalidData` exactly when
no CR has been seen anywhere earlier in the stream; the CR flag, once set,
is never cleared, so a CR not immediately followed by LF neither fails nor
resets — a later LF still terminates the line normally (see the
counterexample). -/
theorem C7_amended_lf_requires_prior_cr :
    ∀ (pre rest : List Nat) (parts : List (List Char)),
      (∀ b ∈ pre, b ≠ 13 ∧ b ≠ 10) →
      pre.length < 264 →
      (read_head (pre ++ 10 :: rest) parts).1 = .error .invalidData := by
  intro pre rest parts h hlen
  unfold read_head
  exact readHeadLoop_lf_no_cr pre rest [] parts 0 h (by omega)

/-- C7 (counterexample): on `[CR, 'a', LF]` the terminating LF is *not*
immediately preceded by CR, and the CR is *not* immediately followed by LF,
yet `read_head` succeeds with token `"a"` — contradicting both halves of the
claim. -/
theorem C7_counterexample : read_head [13, 97, 10] [] = (.ok 3, [['a']]) := by
  rfl

theorem C7_witness : (read_head [97, 10] []).1 = .error .invalidData :=
  C7_amended_lf_requires_prior_cr [97] [] [] (by decide) (by decide)

/-- C8: `Request::build_head` with method/URI/version all set writes
`self.lines[0]` unconditionally, so on an empty `lines` vector it panics
with an out-of-bounds index instead of returning a `Result`; under the same
conditions `Response::build_head` pushes a fresh head line and succeeds. -/
theorem C8_request_build_head_panics :
    (∀ req : Request, req.lines = [] → req.method.isSome → req.uri.isSome →
      req.version.isSome → (Request.build_head req).1 = .panic) ∧
    (∀ resp : Response, resp.lines = [] → resp.version.isSome → resp.status_code.isSome →
      resp.status_message.isSome →
      (Response.build_head resp).1 = .ok () ∧
      (Response.build_head resp).2.lines.length = 1) := by
  constructor
  · intro req hlines hm hu hv
    obtain ⟨m, hm⟩ := Option.isSome_iff_exists.mp hm
    obtain ⟨u, hu⟩ := Option.isSome_iff_exists.mp hu
    obtain ⟨v, hv⟩ := Option.isSome_iff_exists.mp hv
    simp [Request.build_head, hm, hu, hv, hlines]
  · intro resp hlines hv hc hmsg
    obtain ⟨v, hv⟩ := Option.isSome_iff_exists.mp hv
    obtain ⟨c, hc⟩ := Option.isSome_iff_exists.mp hc
    obtain ⟨msg, hmsg⟩ := Option.isSome_iff_exists.mp hmsg
    constructor <;> simp [Response.build_head, hv, hc, hmsg, hlines]

theorem C8_witness :
    (Request.build_head
      ⟨some "GET".toList, some "/".toList, some "1.1".toList, [], 0, none, []⟩).1 =
      .panic ∧
    (Response.build_head
      ⟨some 200, some "OK".toList, some "1.1".toList, [], 0, none, []⟩).1 = .ok () ∧
    (Response.build_head
      ⟨some 200, some "OK".toList, some "1.1".toList, [], 0, none, []⟩).2.lines.length = 1 :=
  ⟨C8_request_build_head_panics.1
     ⟨some "GET".toList, some "/".toList, some "1.1".toList, [], 0, none, []⟩
     rfl rfl rfl rfl,
   C8_request_build_head_panics.2
     ⟨some 200, some "OK".toList, some "1.1".toList, [], 0, none, []⟩
     rfl rfl rfl rfl⟩

/-- The head line `build_head` produces. -/
def respHeadLine (v : List Char) (code : Nat) (msg : List Char) : List Char :=
  ("HTTP/".toList ++ v) ++ ' ' :: natToString code ++ ' ' :: msg

/-- The wire line `build_headers` produces for one header pair. -/
def headerLine (p : List Char × List Char) : List Char :=
  p.1 ++ ':' :: ' ' :: p.2

theorem parseHeaderLinesResp_map :
    ∀ (hs acc : List (List Char × List Char)),
      (∀ p ∈ hs, containsColonSpace p.1 = false) →
      (∀ p ∈ hs, ∀ q ∈ acc, p.1 ≠ q.1) →
      (hs.map Prod.fst).Nodup →
      parseHeaderLinesResp (hs.map headerLine ++ [[], []]) acc = (.ok (), acc ++ hs) := by
  intro hs
  induction hs with
  | nil =>
    intro acc _ _ _
    simp [parseHeaderLinesResp]
  | cons p t ih =>
    intro acc hcs hdisj hnodup
    simp only [List.map_cons, List.cons_append, parseHeaderLinesResp, headerLine]
    rw [if_neg (by simp)]
    simp only [splitOnceColonSpace_append _ (hcs p (by simp)), List.append_eq]
    have hins : hmInsert acc p.1 p.2 = acc ++ [(p.1, p.2)] := by
      unfold hmInsert
      rw [if_neg ?hno]
      case hno =>
        simp only [List.any_eq_true, beq_iff_eq, not_exists, not_and]
        intro q hq he
        exact absurd he.symm (hdisj p (by simp) q hq)
    rw [hins]
    have hdisj' : ∀ x ∈ t, ∀ q ∈ acc ++ [(p.1, p.2)], x.1 ≠ q.1 := by
      intro x hx q hq
      rcases List.mem_append.mp hq with hq | hq
      · exact hdisj x (by simp [hx]) q hq
      · simp at hq
        subst hq
        simp only [List.map_cons, List.nodup_cons] at hnodup
        intro he
        exact hnodup.1 (by
          rw [← he]
          exact List.mem_map_of_mem Prod.fst hx)
    rw [ih (acc ++ [(p.1, p.2)]) (fun x hx => hcs x (by simp [hx])) hdisj'
      (by simp only [List.map_cons, List.nodup_cons] at hnodup; exact hnodup.2)]
    simp

theorem splitn3_respHeadLine (v msg : List Char) (code : Nat)
    (hv : v = "1.0".toList ∨ v = "1.1".toList) :
    splitn3Space (respHeadLine v code msg) =
      ["HTTP/".toList ++ v, natToString code, msg] := by
  unfold respHeadLine
  apply splitn3Space_eq
  · intro x hx
    rcases List.mem_append.mp hx with hx | hx
    · simp at hx
      rcases hx with rfl | rfl | rfl | rfl | rfl <;> decide
    · rcases hv with rfl | rfl <;>
        (simp at hx; rcases hx with rfl | rfl | rfl <;> decide)
  · intro x hx
    exact (charIsDigit_ne (natToString_digits code x hx)).2.1

theorem parse_head_built {r : Response} {v msg : List Char} {code : Nat}
    (hv : v = "1.0".toList ∨ v = "1.1".toList) (hcode : code < 2 ^ 64)
    (hlines : r.lines.head? = some (respHeadLine v code msg)) :
    r.parse_head = (.ok (), { r with version := some v, status_code := some code }) := by
  unfold Response.parse_head
  simp only [hlines, splitn3_respHeadLine v msg code hv, List.get?]
  rcases hv with rfl | rfl
  · rw [if_pos (Or.inl (by decide)), if_pos (by decide), parseUsize_natToString hcode]
  · rw [if_pos (Or.inr (by decide)), if_neg (by decide), parseUsize_natToString hcode]

theorem parse_headers_built {r : Response} {hs : List (List Char × List Char)}
    (hcs : ∀ p ∈ hs, containsColonSpace p.1 = false)
    (hnodup : (hs.map Prod.fst).Nodup)
    (hdrop : r.lines.drop 1 = hs.map headerLine ++ [[], []])
    (hacc : r.headers = []) :
    r.parse_headers = (.ok (), { r with headers := hs }) := by
  unfold Response.parse_headers
  rw [hdrop, hacc, parseHeaderLinesResp_map hs [] hcs (by simp) hnodup]
  simp

theorem respHeadLine_clean {v msg : List Char} {code : Nat}
    (hv : v = "1.0".toList ∨ v = "1.1".toList) (hmsg : containsCRLF msg = false) :
    containsCRLF (respHeadLine v code msg) = false := by
  have hN : ∀ c ∈ natToString code, c ≠ '\r' :=
    fun c hc => (charIsDigit_ne (natToString_digits code c hc)).2.2.1
  unfold respHeadLine
  rcases hv with rfl | rfl
  · rw [show ("HTTP/".toList ++ "1.0".toList) ++ ' ' :: natToString code ++ ' ' :: msg =
        "HTTP/1.0 ".toList ++ (natToString code ++ (' ' :: msg)) from rfl,
      containsCRLF_append_left _ (by decide),
      containsCRLF_append_left _ hN,
      show (' ' :: msg) = [' '] ++ msg from rfl,
      containsCRLF_append_left _ (by decide), hmsg]
  · rw [show ("HTTP/".toList ++ "1.1".toList) ++ ' ' :: natToString code ++ ' ' :: msg =
        "HTTP/1.1 ".toList ++ (natToString code ++ (' ' :: msg)) from rfl,
      containsCRLF_append_left _ (by decide),
      containsCRLF_append_left _ hN,
      show (' ' :: msg) = [' '] ++ msg from rfl,
      containsCRLF_append_left _ (by decide), hmsg]

theorem headerLine_clean {p : List Char × List Char}
    (h1 : containsCRLF p.1 = false) (h2 : containsCRLF p.2 = false) :
    containsCRLF (headerLine p) = false := by
  unfold headerLine
  rw [containsCRLF_append_no_lf h1 (by simp),
    show (':' :: ' ' :: p.2) = [':', ' '] ++ p.2 from rfl,
    containsCRLF_append_left _ (by decide), h2]

/-- C3 (amended, Response half): for every `Response` built from a canonical
version (`"1.0"`/`"1.1"`), a status code below 2^64, a CRLF-free status
message, and a header map whose names are CRLF-free, `": "`-free and
pairwise distinct and whose values are CRLF-free, `build_head` and
`build_headers` succeed, and feeding `to_string`'s output to a fresh
instance via `read_string`/`parse_head`/`parse_headers` reconstructs the
version, the status code, and exactly the original header mapping — but
leaves the status message unset, because `parse_head` never reads the
reason phrase.  (The analogous `Request` pipeline panics at `build_head`
on a fresh instance — see C8 and the counterexample.) -/
theorem C3_amended_response_roundtrip :
    ∀ (v msg : List Char) (code : Nat) (hs : List (List Char × List Char)),
      (v = "1.0".toList ∨ v = "1.1".toList) →
      code < 2 ^ 64 →
      containsCRLF msg = false →
      (∀ p ∈ hs, containsCRLF p.1 = false ∧ containsCRLF p.2 = false ∧
        containsColonSpace p.1 = false) →
      (hs.map Prod.fst).Nodup →
      Response.build_head ⟨some code, some msg, some v, hs, 0, none, []⟩ =
        (.ok (), ⟨some code, some msg, some v, hs, 0, none, [respHeadLine v code msg]⟩) ∧
      Response.build_headers
          ⟨some code, some msg, some v, hs, 0, none, [respHeadLine v code msg]⟩ =
        (.ok (), ⟨some code, some msg, some v, hs, 0, none,
          respHeadLine v code msg :: hs.map headerLine⟩) ∧
      (responseParsePipeline (Response.to_string
          ⟨some code, some msg, some v, hs, 0, none,
            respHeadLine v code msg :: hs.map headerLine⟩)).1 = .ok () ∧
      (responseParsePipeline (Response.to_string
          ⟨some code, some msg, some v, hs, 0, none,
            respHeadLine v code msg :: hs.map headerLine⟩)).2.version = some v ∧
      (responseParsePipeline (Response.to_string
          ⟨some code, some msg, some v, hs, 0, none,
            respHeadLine v code msg :: hs.map headerLine⟩)).2.status_code = some code ∧
      (responseParsePipeline (Response.to_string
          ⟨some code, some msg, some v, hs, 0, none,
            respHeadLine v code msg :: hs.map headerLine⟩)).2.status_message = none ∧
      (responseParsePipeline (Response.to_string
          ⟨some code, some msg, some v, hs, 0, none,
            respHeadLine v code msg :: hs.map headerLine⟩)).2.headers = hs := by
  intro v msg code hs hv hcode hmsg hhs hnodup
  have hlinesclean : ∀ l ∈ respHeadLine v code msg :: hs.map headerLine,
      containsCRLF l = false := by
    intro l hl
    rcases List.mem_cons.mp hl with rfl | hl
    · exact respHeadLine_clean hv hmsg
    · obtain ⟨p, hp, rfl⟩ := List.mem_map.mp hl
      exact headerLine_clean (hhs p hp).1 (hhs p hp).2.1
  have htext : Response.to_string
      ⟨some code, some msg, some v, hs, 0, none,
        respHeadLine v code msg :: hs.map headerLine⟩ =
      List.intercalate ['\r', '\n'] (respHeadLine v code msg :: hs.map headerLine) ++
        ['\r', '\n', '\r', '\n'] := rfl
  have hsplit : splitCRLF (Response.to_string
      ⟨some code, some msg, some v, hs, 0, none,
        respHeadLine v code msg :: hs.map headerLine⟩) =
      (respHeadLine v code msg :: hs.map headerLine) ++ [[], []] := by
    rw [htext]
    exact splitCRLF_intercalate (by simp) hlinesclean
  have hcontains : containsCRLF (Response.to_string
      ⟨some code, some msg, some v, hs, 0, none,
        respHeadLine v code msg :: hs.map headerLine⟩) = true := by
    rw [htext]
    exact containsCRLF_append_right _ rfl
  have hread : Response.new.read_string (Response.to_string
      ⟨some code, some msg, some v, hs, 0, none,
        respHeadLine v code msg :: hs.map headerLine⟩) =
      (.ok (), ⟨none, none, none, [], 0 + (Response.to_string
        ⟨some code, some msg, some v, hs, 0, none,
          respHeadLine v code msg :: hs.map headerLine⟩).length, none,
        [] ++ splitCRLF (Response.to_string
          ⟨some code, some msg, some v, hs, 0, none,
            respHeadLine v code msg :: hs.map headerLine⟩)⟩) := by
    unfold Response.read_string
    rw [if_pos hcontains]
    rfl
  have hph : Response.parse_head
      ⟨none, none, none, [], 0 + (Response.to_string
        ⟨some code, some msg, some v, hs, 0, none,
          respHeadLine v code msg :: hs.map headerLine⟩).length, none,
        [] ++ splitCRLF (Response.to_string
          ⟨some code, some msg, some v, hs, 0, none,
            respHeadLine v code msg :: hs.map headerLine⟩)⟩ =
      (.ok (), ⟨some code, none, some v, [], 0 + (Response.to_string
        ⟨some code, some msg, some v, hs, 0, none,
          respHeadLine v code msg :: hs.map headerLine⟩).length, none,
        [] ++ splitCRLF (Response.to_string
          ⟨some code, some msg, some v, hs, 0, none,
            respHeadLine v code msg :: hs.map headerLine⟩)⟩) := by
    exact parse_head_built hv hcode (by rw [hsplit]; rfl)
  have hphd : Response.parse_headers
      ⟨some code, none, some v, [], 0 + (Response.to_string
        ⟨some code, some msg, some v, hs, 0, none,
          respHeadLine v code msg :: hs.map headerLine⟩).length, none,
        [] ++ splitCRLF (Response.to_string
          ⟨some code, some msg, some v, hs, 0, none,
            respHeadLine v code msg :: hs.map headerLine⟩)⟩ =
      (.ok (), ⟨some code, none, some v, hs, 0 + (Response.to_string
        ⟨some code, some msg, some v, hs, 0, none,
          respHeadLine v code msg :: hs.map headerLine⟩).length, none,
        [] ++ splitCRLF (Response.to_string
          ⟨some code, some msg, some v, hs, 0, none,
            respHeadLine v code msg :: hs.map headerLine⟩)⟩) := by
    exact parse_headers_built (fun p hp => (hhs p hp).2.2) hnodup (by rw [hsplit]; rfl) rfl
  have hpipe : responseParsePipeline (Response.to_string
      ⟨some code, some msg, some v, hs, 0, none,
        respHeadLine v code msg :: hs.map headerLine⟩) =
      (.ok (), ⟨some code, none, some v, hs, 0 + (Response.to_string
        ⟨some code, some msg, some v, hs, 0, none,
          respHeadLine v code msg :: hs.map headerLine⟩).length, none,
        [] ++ splitCRLF (Response.to_string
          ⟨some code, some msg, some v, hs, 0, none,
            respHeadLine v code msg :: hs.map headerLine⟩)⟩) := by
    unfold responseParsePipeline
    simp only [hread, hph, hphd]
  refine ⟨rfl, rfl, ?_, ?_, ?_, ?_, ?_⟩ <;> rw [hpipe]

/-- C3 (counterexample): a `Response` built with status message `"OK"` does
not reconstruct it — after the full build/serialize/parse round trip the
`status_message` field is `none` — and on the `Request` side `build_head`
on a freshly constructed request (empty `lines`) panics outright. -/
theorem C3_counterexample :
    (responseParsePipeline (Response.to_string
      (Response.build_headers (Response.build_head
        ⟨some 200, some "OK".toList, some "1.1".toList, [("H".toList, "V".toList)],
          0, none, []⟩).2).2)).2.status_message = none ∧
    some "OK".toList ≠ (none : Option (List Char)) ∧
    (Request.build_head
      ⟨some "GET".toList, some "/".toList, some "1.1".toList, [], 0, none, []⟩).1 =
      .panic := by
  refine ⟨by decide, by decide, by rfl⟩

theorem C3_witness :
    (responseParsePipeline (Response.to_string
      ⟨some 200, some "OK".toList, some "1.1".toList, [("H".toList, "V".toList)], 0, none,
        respHeadLine "1.1".toList 200 "OK".toList ::
          [("H".toList, "V".toList)].map headerLine⟩)).2.status_message = none ∧
    (responseParsePipeline (Response.to_string
      ⟨some 200, some "OK".toList, some "1.1".toList, [("H".toList, "V".toList)], 0, none,
        respHeadLine "1.1".toList 200 "OK".toList ::
          [("H".toList, "V".toList)].map headerLine⟩)).2.headers =
      [("H".toList, "V".toList)] :=
  ⟨(C3_amended_response_roundtrip "1.1".toList "OK".toList 200 [("H".toList, "V".toList)]
      (Or.inr rfl) (by norm_num) (by decide) (by decide) (by decide)).2.2.2.2.2.1,
   (C3_amended_response_roundtrip "1.1".toList "OK".toList 200 [("H".toList, "V".toList)]
      (Or.inr rfl) (by norm_num) (by decide) (by decide) (by decide)).2.2.2.2.2.2⟩
